import Mathlib

/-!
Verification of the tag-abstraction / token-safety codec of the
Xliff-AI-Translation repository.

The Python modules `core/token_safe_translation.py`, `core/qa.py`,
`core/token_guard.py`, `core/abstractor.py` and `core/xliff_inline_tags.py`
are embedded shallowly: strings become `String`/`List Char`, the small
regular expressions used by the code are compiled by hand into scanning
functions with the exact matching semantics of Python's `re` module
(leftmost match, greedy/lazy quantifier behaviour and alternation order are
noted at each definition), `collections.Counter` becomes first-occurrence
key lists with `List.count`, and exceptions become `Except`.  The token
wire format is an ASCII decimal string, so the regex class `\d` and
`str.isdigit` are modelled as ASCII digits.
-/

/-- Splits a character list into its maximal leading run of decimal digits
and the remainder. -/
def takeDigits : List Char → List Char × List Char
  | [] => ([], [])
  | c :: cs =>
    if c.isDigit then
      let (d, r) := takeDigits cs
      (c :: d, r)
    else ([], c :: cs)

/-- True when the characters begin with one or more digits followed by a
closing brace, i.e. the lookahead `\d+\}` used by the QA regexes. -/
def tokenShapeAt (cs : List Char) : Bool :=
  match takeDigits cs with
  | (d, '}' :: _) => !d.isEmpty
  | _ => false

/-- All matches of the valid-token regex `\{\d+\}` (`re.findall`), in order.
`re.findall` resumes scanning after each match; a token contains `{` only as
its first character, so matches can never overlap and the scan may
equivalently advance one character at a time, which keeps the recursion
structural. -/
def findTokens : List Char → List String
  | [] => []
  | c :: cs =>
    if c = '{' then
      match takeDigits cs with
      | (d, r1 :: _) =>
        if r1 = '}' then
          if d.isEmpty then findTokens cs
          else ("\x7b" ++ String.mk d ++ "\x7d") :: findTokens cs
        else findTokens cs
      | (_, []) => findTokens cs
    else findTokens cs

/-- All matches of the invalid-token regex `\{(?!\d+\})` (`re.findall`): each
match is the single character `{` that is not immediately followed by one or
more digits and a closing brace, so the scan advances one character at a
time exactly as `re` does. -/
def invalidTokenMatches : List Char → List String
  | [] => []
  | c :: cs =>
    (if c = '{' ∧ tokenShapeAt cs = false then ["\x7b"] else []) ++ invalidTokenMatches cs

/-! ## `core/token_safe_translation.py` -/

/-- Result record of `split_by_known_tokens` (dataclass `SplitResult`). -/
structure SplitResult where
  text_chunks : List String
  tokens : List String
deriving Repr, DecidableEq

/-- The inner helper `flush_buf` of `split_by_known_tokens`: appends the
joined buffer as a chunk when forced, when the buffer is non-empty, or when
no chunk has been emitted yet, and clears the buffer. -/
def flush_buf (force : Bool) (chunks : List String) (buf : List Char) :
    List String × List Char :=
  if force = true ∨ buf ≠ [] ∨ chunks = [] then (chunks ++ [String.mk buf], [])
  else (chunks, buf)

/-- Scanning loop of `split_by_known_tokens`.  On `{` followed by one or more
digits, a closing brace and a digit string that is a known key, the buffer is
flushed, the token recorded and the scan resumes after the token; any other
`{` is treated as a literal character.  The Python loop jumps its index past
a consumed token; the `skip` counter passes over those already-consumed
characters one at a time to keep the recursion structural. -/
def splitScan (known : List String) :
    List Char → Nat → List String → List String → List Char →
    List String × List String
  | [], _, chunks, tokens, buf => ((flush_buf true chunks buf).1, tokens)
  | _ :: cs, Nat.succ k, chunks, tokens, buf => splitScan known cs k chunks tokens buf
  | c :: cs, 0, chunks, tokens, buf =>
    if c = '{' then
      match takeDigits cs with
      | (d, '}' :: _) =>
        if d ≠ [] ∧ String.mk d ∈ known then
          let fl := flush_buf false chunks buf
          splitScan known cs (d.length + 1) fl.1
            (tokens ++ ["\x7b" ++ String.mk d ++ "\x7d"]) fl.2
        else splitScan known cs 0 chunks tokens (buf ++ [c])
      | _ => splitScan known cs 0 chunks tokens (buf ++ [c])
    else splitScan known cs 0 chunks tokens (buf ++ [c])

/-- Python `split_by_known_tokens(text, tags_map)`: splits the text around
the `{k}` tokens whose key `k` belongs to `tags_map`, then raises
`ValueError("Split invariant violated")` (modelled as `Except.error`) when
the resulting chunk/token counts do not satisfy
`len(chunks) == len(tokens) + 1`. -/
def split_by_known_tokens (text : String) (tags_map : List (String × String)) :
    Except String SplitResult :=
  let known := tags_map.map Prod.fst
  let r := splitScan known text.data 0 [] [] []
  if r.1.length ≠ r.2.length + 1 then Except.error "Split invariant violated"
  else Except.ok ⟨r.1, r.2⟩

/-- Interleaving loop of `reassemble_from_chunks`: chunk `i`, then token `i`
when `i < len(tokens)`. -/
def interleaveChunks : List String → List String → String
  | [], _ => ""
  | c :: cs, [] => c ++ interleaveChunks cs []
  | c :: cs, t :: ts => c ++ t ++ interleaveChunks cs ts

/-- Python `reassemble_from_chunks(chunks, tokens)`: concatenates chunks and
tokens alternately, raising `ValueError("Reassemble invariant violated")`
when `len(chunks) != len(tokens) + 1`. -/
def reassemble_from_chunks (chunks tokens : List String) : Except String String :=
  if chunks.length ≠ tokens.length + 1 then Except.error "Reassemble invariant violated"
  else Except.ok (interleaveChunks chunks tokens)

/-! ## `core/qa.py` -/

/-- Accumulator-based first-occurrence deduplication. -/
def counterKeysAux (seen : List String) : List String → List String
  | [] => []
  | x :: xs =>
    if x ∈ seen then counterKeysAux seen xs
    else x :: counterKeysAux (x :: seen) xs

/-- Key list of `collections.Counter(l)` in Python iteration order: the
distinct elements of `l`, ordered by first occurrence.  The count of a key
`k` is `l.count k` (`Counter` returns `0` for absent keys). -/
def counterKeys (l : List String) : List String := counterKeysAux [] l

/-- The `missing_tokens` accumulation of `QAChecker.check_unit`: for each
token of the source counter, when its target count is below its source
count, the token is appended `(source count − target count)` times. -/
def qaMissing (srcToks tgtToks : List String) : List String :=
  (counterKeys srcToks).flatMap fun tok =>
    if tgtToks.count tok < srcToks.count tok then
      List.replicate (srcToks.count tok - tgtToks.count tok) tok
    else []

/-- The `extra_tokens` accumulation of `QAChecker.check_unit`: for each token
of the target counter, when its source count is below its target count, the
token is appended `(target count − source count)` times. -/
def qaExtra (srcToks tgtToks : List String) : List String :=
  (counterKeys tgtToks).flatMap fun tok =>
    if srcToks.count tok < tgtToks.count tok then
      List.replicate (tgtToks.count tok - srcToks.count tok) tok
    else []

/-- Strict lexicographic comparison of character lists by code point, as
Python compares strings. -/
def lexLt : List Char → List Char → Bool
  | [], [] => false
  | [], _ :: _ => true
  | _ :: _, [] => false
  | a :: xs, b :: ys => if a = b then lexLt xs ys else decide (a < b)

/-- Inserts a string in front of the first element not strictly below it. -/
def insertSorted (x : String) : List String → List String
  | [] => [x]
  | y :: ys => if lexLt y.data x.data then y :: insertSorted x ys else x :: y :: ys

/-- Python `sorted` on a list of strings: sort by code-point lexicographic
order (stability is irrelevant here, since equal strings are
indistinguishable values). -/
def pySorted (l : List String) : List String := l.foldr insertSorted []

/-- A `QAIssue` record (`core/qa.py`).  `details` is `None` for the `empty`
issue and a token list otherwise. -/
structure QAIssue where
  type : String
  severity : String
  message : String
  details : Option (List String)
deriving Repr, DecidableEq

/-- A `QAResult` record (`core/qa.py`).  The `qa_details` dict is flattened
into one field per key; a key is set in the dict exactly when its list is
non-empty, so the empty list represents an absent key. -/
structure QAResult where
  status : String
  issues : List QAIssue
  tag_stats : String
  qa_missing : List String
  qa_extra : List String
  qa_invalid : List String
deriving Repr, DecidableEq

/-- `QAChecker.check_unit(source_text, target_text, unit_state)`: extracts
the `\{\d+\}` token multisets of source and target, computes missing/extra
tokens and malformed braces of the target, and classifies the unit as
`error`, `warning` (empty target in state `translated`/`edited`) or `ok`. -/
def check_unit (source_text target_text unit_state : String) : QAResult :=
  let srcToks := findTokens source_text.data
  let tgtToks := findTokens target_text.data
  let missing_tokens := qaMissing srcToks tgtToks
  let extra_tokens := qaExtra srcToks tgtToks
  let invalid_matches := invalidTokenMatches target_text.data
  let tag_stats := "TAG: " ++ Nat.repr tgtToks.length ++ "/" ++ Nat.repr srcToks.length
  let sorted_missing := pySorted missing_tokens
  let sorted_extra := pySorted extra_tokens
  let issues : List QAIssue :=
    (if missing_tokens ≠ [] then
      [⟨"missing", "error",
        "Missing/Duplicate tokens: " ++ String.intercalate ", " sorted_missing,
        some sorted_missing⟩] else [])
    ++ (if extra_tokens ≠ [] then
      [⟨"extra", "error",
        "Extra tokens: " ++ String.intercalate ", " sorted_extra,
        some sorted_extra⟩] else [])
    ++ (if invalid_matches ≠ [] then
      [⟨"invalid", "error",
        "Invalid token format: " ++ String.intercalate ", " (invalid_matches.take 3),
        some invalid_matches⟩] else [])
  let qa_missing := if missing_tokens ≠ [] then sorted_missing else []
  let qa_extra := if extra_tokens ≠ [] then sorted_extra else []
  let qa_invalid := if invalid_matches ≠ [] then invalid_matches else []
  if missing_tokens ≠ [] ∨ extra_tokens ≠ [] ∨ invalid_matches ≠ [] then
    { status := "error", issues := issues, tag_stats := tag_stats,
      qa_missing := qa_missing, qa_extra := qa_extra, qa_invalid := qa_invalid }
  else if target_text = "" ∧ (unit_state = "translated" ∨ unit_state = "edited") then
    { status := "warning",
      issues := [⟨"empty", "warning", "Empty translation", none⟩],
      tag_stats := tag_stats, qa_missing := qa_missing, qa_extra := qa_extra,
      qa_invalid := qa_invalid }
  else
    { status := "ok", issues := issues, tag_stats := tag_stats,
      qa_missing := qa_missing, qa_extra := qa_extra, qa_invalid := qa_invalid }

/-! ## `core/token_guard.py` -/

namespace TokenGuard

/-- `TokenGuard.extract_tokens`: all `\{\d+\}` matches of the text. -/
def extract_tokens (text : String) : List String := findTokens text.data

/-- `missing` accumulation of `TokenGuard.validate`; written identically to
the QAChecker loop. -/
def tgMissing (srcToks tgtToks : List String) : List String :=
  (counterKeys srcToks).flatMap fun tok =>
    if tgtToks.count tok < srcToks.count tok then
      List.replicate (srcToks.count tok - tgtToks.count tok) tok
    else []

/-- `extra` accumulation of `TokenGuard.validate`; the source writes the
comparison as `tgt_counts[token] > src_counts[token]`. -/
def tgExtra (srcToks tgtToks : List String) : List String :=
  (counterKeys tgtToks).flatMap fun tok =>
    if tgtToks.count tok > srcToks.count tok then
      List.replicate (tgtToks.count tok - srcToks.count tok) tok
    else []

/-- Matches `id=["\']([^"\']+)["\']` at the head of the characters and
returns the captured group: the literal `id=`, an opening quote of either
kind, then the greedy class `[^"\']+` which necessarily ends at the next
quote character (backtracking cannot help, since shortening the run leaves a
non-quote where a quote is required), then a quote of either kind. -/
def idCapture : List Char → Option String
  | 'i' :: 'd' :: '=' :: q :: rest =>
    if q = '"' ∨ q = '\'' then
      let sp := rest.span fun c => decide (c ≠ '"' ∧ c ≠ '\'')
      match sp.2 with
      | c2 :: _ => if sp.1 ≠ [] ∧ (c2 = '"' ∨ c2 = '\'') then some (String.mk sp.1) else none
      | [] => none
    else none
  | _ => none

/-- Backtracking of the greedy `[^>]*` segment of
`<NAME[^>]*id=["\']([^"\']+)["\']`: candidate offsets run from the longest
run of non-`>` characters down to zero, so the deepest offset at which
`id=...` matches wins; the recursion therefore prefers the recursive (later)
result. -/
def greedyIdInRegion : List Char → Option String
  | [] => none
  | c :: cs =>
    if c = '>' then none
    else
      match greedyIdInRegion cs with
      | some v => some v
      | none => idCapture (c :: cs)

/-- `re.search` of `<NAME[^>]*id=["\']([^"\']+)["\']` for a fixed tag name:
start positions are tried left to right; at a position where `<NAME` matches,
the greedy region is searched, otherwise the start advances by one. -/
def searchTagId (ntag : List Char) : List Char → Option String
  | [] => none
  | c :: cs =>
    match
      (if ('<' :: ntag).isPrefixOf (c :: cs) then
        greedyIdInRegion ((c :: cs).drop (ntag.length + 1))
      else none) with
    | some v => some v
    | none => searchTagId ntag cs

/-- Dictionary update `pairs_map[rid][field] = token` of
`TokenGuard.validate`: the entry for `rid` is updated in place when present
and appended otherwise (Python dict insertion order). -/
def updatePairs : List (String × Option String × Option String) → String → Bool → String →
    List (String × Option String × Option String)
  | [], rid, isBpt, tok =>
    [(rid, if isBpt then (some tok, none) else (none, some tok))]
  | (r, b, e) :: ps, rid, isBpt, tok =>
    if r = rid then (r, if isBpt then (some tok, e) else (b, some tok)) :: ps
    else (r, b, e) :: updatePairs ps rid isBpt tok

/-- Classification of one `tags_map` entry by the `bpt`/`ept` id regexes of
`TokenGuard.validate` (`bpt` first, `elif` for `ept`): yields the semantic
id, whether the entry is a `bpt`, and the entry's placeholder token. -/
def classifyEntry (pid content : String) : Option (String × Bool × String) :=
  let tok := "\x7b" ++ pid ++ "\x7d"
  match searchTagId ['b', 'p', 't'] content.data with
  | some rid => some (rid, true, tok)
  | none =>
    match searchTagId ['e', 'p', 't'] content.data with
    | some rid => some (rid, false, tok)
    | none => none

/-- The `pairs_map` fold of `TokenGuard.validate` over the `tags_map`
entries in insertion order. -/
def buildPairs : List (String × String) → List (String × Option String × Option String) →
    List (String × Option String × Option String)
  | [], pm => pm
  | (pid, content) :: rest, pm =>
    match classifyEntry pid content with
    | some (rid, isBpt, tok) => buildPairs rest (updatePairs pm rid isBpt tok)
    | none => buildPairs rest pm

/-- Pairing check of `TokenGuard.validate` over the finished `pairs_map`, in
insertion order: when both tokens of a semantic id are known and both occur
in the target token list, a broken-pair message is appended when the first
occurrence of the `bpt` token comes strictly after the first occurrence of
the `ept` token (`list.index` is the first-occurrence index). -/
def pairingErrors (pm : List (String × Option String × Option String))
    (target_tokens : List String) : List String :=
  pm.flatMap fun p =>
    match p.2.1, p.2.2 with
    | some bpt, some ept =>
      if bpt ∈ target_tokens ∧ ept ∈ target_tokens then
        if target_tokens.indexOf ept < target_tokens.indexOf bpt then
          ["Broken Pair: " ++ bpt ++ " appears after " ++ ept]
        else []
      else []
    | _, _ => []

/-- A `ValidationResult` record (`core/token_guard.py`). -/
structure ValidationResult where
  valid : Bool
  missing : List String
  extra : List String
  order_errors : List String
  pairing_errors : List String
  message : String
deriving Repr, DecidableEq

/-- `TokenGuard.validate(source_text, target_text, tags_map)`: multiset
missing/extra check plus the `bpt`/`ept` pairing check. -/
def validate (source_text target_text : String) (tags_map : List (String × String)) :
    ValidationResult :=
  let source_tokens := extract_tokens source_text
  let target_tokens := extract_tokens target_text
  let missing := tgMissing source_tokens target_tokens
  let extra := tgExtra source_tokens target_tokens
  let pairs_map := buildPairs tags_map []
  let perr := pairingErrors pairs_map target_tokens
  let msg_parts :=
    (if missing ≠ [] then ["Missing: " ++ String.intercalate ", " missing] else [])
    ++ (if extra ≠ [] then ["Extra: " ++ String.intercalate ", " extra] else [])
    ++ (if perr ≠ [] then ["Pairing: " ++ String.intercalate ", " perr] else [])
  { valid := missing.isEmpty && extra.isEmpty && perr.isEmpty
    missing := missing
    extra := extra
    order_errors := []
    pairing_errors := perr
    message := if msg_parts ≠ [] then String.intercalate " | " msg_parts else "Valid" }

end TokenGuard

/-! ## `core/xliff_inline_tags.py` and the XML fragment model -/

/-- `INLINE_TAG_LOCALNAMES` from `core/xliff_inline_tags.py`, in source
order (which is also the alternation order of `INLINE_TAG_REGEX`). -/
def INLINE_TAG_LOCALNAMES : List String :=
  ["bpt", "ept", "ph", "it", "mrk", "g", "x", "bx", "ex"]

mutual
/-- A node of the XML fragment model: an element with name, attributes,
leading text and children, or a comment.  Models the node tree the external
XML library (lxml `etree`) produces on the well-behaved subset described at
`parseFragment`; the empty string stands for the library's absent (`None`)
text. -/
inductive XmlNode where
  | el : String → List (String × String) → String → XmlChildren → XmlNode
  | comment : String → XmlNode

/-- A child sequence: each child node carries its following tail text. -/
inductive XmlChildren where
  | nil : XmlChildren
  | cons : XmlNode → String → XmlChildren → XmlChildren
end

/-- True exactly on the empty child sequence. -/
def isNilChildren : XmlChildren → Bool
  | .nil => true
  | .cons _ _ _ => false

/-- Attribute serialization ` name="value"` as the XML library re-emits it
(always double quotes; the modelled subset excludes characters that would
need escaping). -/
def attrsString (attrs : List (String × String)) : String :=
  String.join (attrs.map fun a => " " ++ a.1 ++ "=\"" ++ a.2 ++ "\"")

mutual
/-- `etree.tostring(node, with_tail=False)` on the fragment model: an
element with no text and no children serializes self-closing, otherwise as
open tag, text, children with their tails, and close tag; a comment
serializes as `<!--text-->`. -/
def serializeNode : XmlNode → String
  | .el nm attrs txt children =>
    if txt = "" ∧ isNilChildren children = true then
      "<" ++ nm ++ attrsString attrs ++ "/>"
    else
      "<" ++ nm ++ attrsString attrs ++ ">" ++ txt ++ serializeChildren children
        ++ "</" ++ nm ++ ">"
  | .comment c => "<!--" ++ c ++ "-->"

/-- Serialization of a child sequence, each node followed by its tail. -/
def serializeChildren : XmlChildren → String
  | .nil => ""
  | .cons n tail rest => serializeNode n ++ tail ++ serializeChildren rest
end

/-- Whitespace class `\s` (ASCII subset; xmlns declarations only ever carry
ASCII spacing). -/
def wsChar (c : Char) : Bool :=
  decide (c = ' ' ∨ c = '\t' ∨ c = '\n' ∨ c = '\r' ∨ c = '\x0b' ∨ c = '\x0c')

/-- Word class `\w` (ASCII subset). -/
def wordChar (c : Char) : Bool := c.isAlphanum || c == '_'

/-- Length of a match of `\s+xmlns(:\w+)?="[^"]+"` at the head of the
characters, when there is one.  `\s+` is greedy and must be followed by the
literal `xmlns`, so the whitespace run is maximal; the optional `:\w+`
group is a colon plus a maximal non-empty word run (shorter runs cannot be
followed by `=`, so backtracking is vacuous); `[^"]+` is a maximal
non-empty run of non-quote characters ending at the next quote. -/
def xmlnsMatchLen (s : List Char) : Option Nat :=
  let sp := s.span wsChar
  if sp.1 = [] then none
  else
    match sp.2 with
    | 'x' :: 'm' :: 'l' :: 'n' :: 's' :: rest =>
      match
        (match rest with
         | ':' :: r2 =>
           let w := r2.span wordChar
           if w.1 = [] then none else some (1 + w.1.length, w.2)
         | r2 => some (0, r2)) with
      | none => none
      | some (nl, r3) =>
        match r3 with
        | '=' :: '"' :: r4 =>
          let v := r4.span fun c => decide (c ≠ '"')
          match v.2 with
          | '"' :: _ =>
            if v.1 = [] then none
            else some (sp.1.length + 5 + nl + 2 + v.1.length + 1)
          | _ => none
        | _ => none
    | _ => none

/-- The inner `strip_xmlns` of `abstract`:
`re.sub(r'\s+xmlns(:\w+)?="[^"]+"', '', s)`.  Every match is removed; the
`skip` counter passes over a match's characters one at a time to keep the
recursion structural (a match is at least two characters long). -/
def stripXmlnsScan : List Char → Nat → List Char
  | [], _ => []
  | _ :: cs, Nat.succ k => stripXmlnsScan cs k
  | c :: cs, 0 =>
    match xmlnsMatchLen (c :: cs) with
    | some l => stripXmlnsScan cs (l - 1)
    | none => c :: stripXmlnsScan cs 0

/-- `strip_xmlns` on strings. -/
def strip_xmlns (s : String) : String := String.mk (stripXmlnsScan s.data 0)

/-- Name characters of the modelled XML subset (letters, digits, `_`, `-`,
`.`; namespace prefixes on element names are not modelled). -/
def nameChar (c : Char) : Bool := c.isAlphanum || c == '_' || c == '-' || c == '.'

/-- Attribute-name characters: additionally `:`, so that `xmlns` and
`xmlns:pre` declarations parse as plain attributes, matching how the
serializer re-emits them in place. -/
def attrNameChar (c : Char) : Bool := nameChar c || c == ':'

/-- Text characters of the modelled subset: `<` ends text; `&` and `>` in
text are rejected (entities and serializer escaping are outside the
subset — inputs using them are treated as parse failures, which only moves
them to the fallback path the real code also uses for malformed input). -/
def textChar (c : Char) : Bool := decide (c ≠ '<' ∧ c ≠ '&' ∧ c ≠ '>')

/-- Attribute list parser: whitespace-separated `name="value"` /
`name='value'` pairs; a value may not contain `&`, `<`, `>` or its quote.
Returns the attributes and the rest, which starts at `/>` or `>`. -/
def parseAttrs : Nat → List Char → Option (List (String × String) × List Char)
  | 0, _ => none
  | Nat.succ fuel, s =>
    let sp := s.span wsChar
    match sp.2 with
    | '/' :: r => some ([], '/' :: r)
    | '>' :: r => some ([], '>' :: r)
    | rest =>
      if sp.1 = [] then none
      else
        let nm := rest.span attrNameChar
        if nm.1 = [] then none
        else
          match nm.2 with
          | '=' :: q :: r2 =>
            if q = '"' ∨ q = '\'' then
              let v := r2.span fun c => decide (c ≠ q ∧ c ≠ '&' ∧ c ≠ '<' ∧ c ≠ '>')
              match v.2 with
              | q2 :: r3 =>
                if q2 = q then
                  match parseAttrs fuel r3 with
                  | some (attrs, r4) => some ((String.mk nm.1, String.mk v.1) :: attrs, r4)
                  | none => none
                else none
              | [] => none
            else none
          | _ => none

/-- Comment body scanner (input begins after `<!--`): consumes up to the
terminator `-->`; a `--` not followed by `>` is malformed and rejected, as
the XML parser rejects it. -/
def parseComment : Nat → List Char → Option (String × List Char)
  | 0, _ => none
  | Nat.succ fuel, s =>
    match s with
    | '-' :: '-' :: '>' :: rest => some ("", rest)
    | '-' :: '-' :: _ => none
    | c :: cs =>
      match parseComment fuel cs with
      | some (body, rest) => some (String.mk [c] ++ body, rest)
      | none => none
    | [] => none

mutual
/-- Parses element content (also the top level of a fragment): leading
text, then a sequence of elements and comments with tail texts.  Stops at
end of input or at a closing tag `</`, returning the remainder unconsumed. -/
def parseContent : Nat → List Char → Option (String × XmlChildren × List Char)
  | 0, _ => none
  | Nat.succ fuel, s =>
    let sp := s.span textChar
    match sp.2 with
    | [] => some (String.mk sp.1, XmlChildren.nil, [])
    | '<' :: '/' :: r => some (String.mk sp.1, XmlChildren.nil, '<' :: '/' :: r)
    | '<' :: '!' :: '-' :: '-' :: r =>
      match parseComment fuel r with
      | some (body, r2) =>
        match parseContent fuel r2 with
        | some (tailTxt, siblings, rest) =>
          some (String.mk sp.1, XmlChildren.cons (XmlNode.comment body) tailTxt siblings, rest)
        | none => none
      | none => none
    | '<' :: r =>
      match parseElement fuel r with
      | some (node, r2) =>
        match parseContent fuel r2 with
        | some (tailTxt, siblings, rest) =>
          some (String.mk sp.1, XmlChildren.cons node tailTxt siblings, rest)
        | none => none
      | none => none
    | _ => none

/-- Parses one element starting after its `<`: name, attributes, then
either `/>` or `>` content `</name>`, the close tag matching exactly. -/
def parseElement : Nat → List Char → Option (XmlNode × List Char)
  | 0, _ => none
  | Nat.succ fuel, s =>
    let nm := s.span nameChar
    if nm.1 = [] then none
    else if ¬ ((nm.1.headD 'a').isAlpha = true ∨ nm.1.headD 'a' = '_') then none
    else
      match parseAttrs fuel nm.2 with
      | some (attrs, r) =>
        match r with
        | '/' :: '>' :: rest =>
          some (XmlNode.el (String.mk nm.1) attrs "" XmlChildren.nil, rest)
        | '>' :: rest =>
          match parseContent fuel rest with
          | some (txt, children, r2) =>
            match r2 with
            | '<' :: '/' :: r3 =>
              if (nm.1 ++ ['>']).isPrefixOf r3 then
                some (XmlNode.el (String.mk nm.1) attrs txt children,
                  r3.drop (nm.1.length + 1))
              else none
            | _ => none
          | none => none
        | _ => none
      | none => none
end

/-- A parsed fragment: the text before the first child of the synthetic
`<dummy>` root, and the root's children with their tails. -/
structure Fragment where
  text : String
  items : XmlChildren

/-- Models `etree.fromstring(f"<dummy>{raw}</dummy>")` on the well-behaved
subset described above.  Anything outside the subset returns `none`; the
real parser raises on a subset of those inputs, and `abstract` treats a
failure identically in either case (the regex fallback).  The fuel bound
exceeds the maximal call depth, which consumes at least one character per
step. -/
def parseFragment (s : String) : Option Fragment :=
  match parseContent (s.data.length + 2) s.data with
  | some (txt, items, []) => some ⟨txt, items⟩
  | _ => none

/-! ## `core/abstractor.py` -/

/-- An `AbstractionResult` record: abstracted text and the ordered
placeholder → markup-fragment mapping. -/
structure AbstractionResult where
  abstracted_text : String
  tags_map : List (String × String)
deriving Repr, DecidableEq

namespace TagAbstractor

/-- Primary-path walk of `abstract` over the root's children
(`for node in dummy_root`) with the placeholder counter: a child element
whose local name is in the catalog is replaced by `{counter}` and recorded
(namespace declarations stripped from its serialization) followed by its
raw tail; any other node — unrecognized element or comment — is serialized
verbatim with its tail (through the same stripping) and never tokenized,
leaving the counter unchanged. -/
def walkItems : XmlChildren → Nat → String × List (String × String)
  | .nil, _ => ("", [])
  | .cons (XmlNode.el nm attrs txt children) tail rest, counter =>
    if nm ∈ INLINE_TAG_LOCALNAMES then
      let placeholder := "\x7b" ++ Nat.repr counter ++ "\x7d"
      let tag_content := strip_xmlns (serializeNode (XmlNode.el nm attrs txt children))
      let r := walkItems rest (counter + 1)
      (placeholder ++ tail ++ r.1, (Nat.repr counter, tag_content) :: r.2)
    else
      let r := walkItems rest counter
      (strip_xmlns (serializeNode (XmlNode.el nm attrs txt children) ++ tail) ++ r.1, r.2)
  | .cons (XmlNode.comment c) tail rest, counter =>
    let r := walkItems rest counter
    (strip_xmlns (serializeNode (XmlNode.comment c) ++ tail) ++ r.1, r.2)

/-- Primary path of `abstract` on a successfully parsed fragment: the
root's leading text, then the walked children (counter starting at 1). -/
def primaryAbstract (frag : Fragment) : AbstractionResult :=
  let r := walkItems frag.items 1
  ⟨frag.text ++ r.1, r.2⟩

/-- First alternative of the name group `(?:bpt|ept|ph|it|mrk|g|x|bx|ex)`
matching a prefix of the characters (no catalog name is a prefix of
another, so at most one alternative can match).  Returns the name and the
remainder. -/
def nameAt (s : List Char) : Option (String × List Char) :=
  INLINE_TAG_LOCALNAMES.findSome? fun nm =>
    if nm.data.isPrefixOf s then some (nm, s.drop nm.data.length) else none

/-- Index of the first `>` in the characters. -/
def firstGt : List Char → Option Nat
  | [] => none
  | c :: cs => if c = '>' then some 0 else (firstGt cs).map (· + 1)

/-- Length of a closing tag `</(?:bpt|...)>` at the head of the characters,
when there is one. -/
def closerLen (s : List Char) : Option Nat :=
  match s with
  | c1 :: c2 :: rest =>
    if c1 = '<' ∧ c2 = '/' then
      match nameAt rest with
      | some (nm, r) =>
        match r with
        | r1 :: _ => if r1 = '>' then some (2 + nm.data.length + 1) else none
        | [] => none
      | none => none
    else none
  | _ => none

/-- End offset of the earliest closing tag reachable by the lazy `.*?`
(DOTALL): positions are tried left to right. -/
def findCloserEnd : List Char → Option Nat
  | [] => none
  | c :: cs =>
    match closerLen (c :: cs) with
    | some l => some l
    | none => (findCloserEnd cs).map (· + 1)

/-- Length of a match of `INLINE_TAG_REGEX` at the head of the characters.
The paired alternative `<NAME[^>]*?>.*?</NAME>` is tried first: the lazy
`[^>]*?>` necessarily ends at the first `>` (the class cannot pass over a
`>`), and the lazy `.*?` reaches the earliest closing tag.  Otherwise the
self-closing alternative `<NAME[^>]*?/>`, which succeeds exactly when the
character before the first `>` exists, is `/`, and sits at or after the end
of the name. -/
def matchInlineTagLen (s : List Char) : Option Nat :=
  match s with
  | c :: rest =>
    if c = '<' then
      match nameAt rest with
      | some (nm, afterName) =>
        match firstGt afterName with
        | some g =>
          match findCloserEnd (afterName.drop (g + 1)) with
          | some e => some (1 + nm.data.length + g + 1 + e)
          | none =>
            if 1 ≤ g ∧ afterName.getD (g - 1) 'x' = '/' then
              some (1 + nm.data.length + g + 1)
            else none
        | none => none
      | none => none
    else none
  | [] => none

/-- Fallback `TAG_PATTERN.sub(replace_match, raw_xml)` of `abstract`: the
scan moves left to right, replacing every regex match with the next
`{counter}` placeholder and recording the matched text under the counter's
key; the `skip` counter passes over a match's characters to keep the
recursion structural (a match is at least four characters long). -/
def fallbackScan : List Char → Nat → Nat → List Char × List (String × String)
  | [], _, _ => ([], [])
  | _ :: cs, counter, Nat.succ k => fallbackScan cs counter k
  | c :: cs, counter, 0 =>
    match matchInlineTagLen (c :: cs) with
    | some l =>
      let r := fallbackScan cs (counter + 1) (l - 1)
      (("\x7b" ++ Nat.repr counter ++ "\x7d").data ++ r.1,
        (Nat.repr counter, String.mk ((c :: cs).take l)) :: r.2)
    | none =>
      let r := fallbackScan cs counter 0
      (c :: r.1, r.2)

/-- The fallback (`except`) path of `abstract` as a whole. -/
def fallbackAbstract (raw_xml : String) : AbstractionResult :=
  let r := fallbackScan raw_xml.data 1 0
  ⟨String.mk r.1, r.2⟩

/-- `TagAbstractor.abstract(raw_xml)`: empty input short-circuits to
`("", {})`; otherwise the primary XML path, falling back to the regex scan
when parsing fails (the `except Exception` branch). -/
def abstract (raw_xml : String) : AbstractionResult :=
  if raw_xml = "" then ⟨"", []⟩
  else
    match parseFragment raw_xml with
    | some frag => primaryAbstract frag
    | none => fallbackAbstract raw_xml

/-- Association-list lookup modelling `key in tags_map` plus
`tags_map[key]` (dict keys are unique, so the first match is the entry). -/
def lookupTag : List (String × String) → String → Option String
  | [], _ => none
  | (k, v) :: rest, key => if k = key then some v else lookupTag rest key

/-- `re.sub(r'\{(\d+)\}', replace_back, abstracted_text)` of `reconstruct`:
each `{digits}` match is replaced by the mapped fragment when the digit
string is a key of `tags_map` and kept literally otherwise; non-matching
text is copied unchanged.  The `skip` counter passes over a match's
characters (the replacement having been emitted first) to keep the
recursion structural. -/
def reconstructScan (tags_map : List (String × String)) : List Char → Nat → List Char
  | [], _ => []
  | _ :: cs, Nat.succ k => reconstructScan tags_map cs k
  | c :: cs, 0 =>
    if c = '{' then
      match takeDigits cs with
      | (d, r1 :: _) =>
        if r1 = '}' then
          if d.isEmpty then c :: reconstructScan tags_map cs 0
          else
            (match lookupTag tags_map (String.mk d) with
             | some v => v.data
             | none => '{' :: d ++ ['}']) ++ reconstructScan tags_map cs (d.length + 1)
        else c :: reconstructScan tags_map cs 0
      | (_, []) => c :: reconstructScan tags_map cs 0
    else c :: reconstructScan tags_map cs 0

/-- `TagAbstractor.reconstruct(abstracted_text, tags_map)`. -/
def reconstruct (abstracted_text : String) (tags_map : List (String × String)) : String :=
  String.mk (reconstructScan tags_map abstracted_text.data 0)

end TagAbstractor

/-! ## Helper lemmas: counters and sorting -/

lemma counterKeysAux_mem (l : List String) : ∀ (seen : List String) (a : String),
    a ∈ counterKeysAux seen l ↔ a ∈ l ∧ a ∉ seen := by
  induction l with
  | nil => intro seen a; simp [counterKeysAux]
  | cons x xs ih =>
    intro seen a
    by_cases hx : x ∈ seen <;> by_cases hax : a = x <;>
      simp [counterKeysAux, hx, ih, hax, List.mem_cons]

lemma counterKeys_mem (l : List String) (a : String) :
    a ∈ counterKeys l ↔ a ∈ l := by
  simpa [counterKeys] using counterKeysAux_mem l [] a

lemma counterKeysAux_nodup (l : List String) : ∀ seen : List String,
    (counterKeysAux seen l).Nodup := by
  induction l with
  | nil => intro seen; simp [counterKeysAux]
  | cons x xs ih =>
    intro seen
    by_cases hx : x ∈ seen
    · simpa [counterKeysAux, hx] using ih seen
    · simp only [counterKeysAux, if_neg hx, List.nodup_cons]
      refine ⟨fun hmem => ?_, ih (x :: seen)⟩
      exact ((counterKeysAux_mem xs (x :: seen) x).1 hmem).2 (List.mem_cons_self x seen)

lemma counterKeys_nodup (l : List String) : (counterKeys l).Nodup :=
  counterKeysAux_nodup l []

lemma count_flatMap_eqkey (f : String → List String)
    (hf : ∀ k, ∀ x ∈ f k, x = k) :
    ∀ (keys : List String), keys.Nodup → ∀ a : String,
      (keys.flatMap f).count a = if a ∈ keys then (f a).length else 0 := by
  intro keys
  induction keys with
  | nil => intro _ a; simp
  | cons k ks ih =>
    intro hnd a
    rcases List.nodup_cons.1 hnd with ⟨hk, hnd'⟩
    rw [List.flatMap_cons, List.count_append, ih hnd' a]
    by_cases hak : a = k
    · subst hak
      have hcount : (f a).count a = (f a).length :=
        List.count_eq_length.2 fun b hb => ((hf a b hb).symm ▸ rfl)
      simp [hcount, hk]
    · have hnot : a ∉ f k := fun hmem => hak (hf k a hmem)
      have hcount : (f k).count a = 0 := List.count_eq_zero.2 hnot
      by_cases haks : a ∈ ks <;> simp [hcount, hak, haks]

lemma qaMissing_count (srcToks tgtToks : List String) (a : String) :
    (qaMissing srcToks tgtToks).count a = srcToks.count a - tgtToks.count a := by
  unfold qaMissing
  rw [count_flatMap_eqkey _ (fun k x hx => ?_) _ (counterKeys_nodup srcToks) a]
  · by_cases hmem : a ∈ counterKeys srcToks
    · rw [if_pos hmem]
      by_cases hlt : tgtToks.count a < srcToks.count a
      · simp [hlt]
      · have := Nat.sub_eq_zero_of_le (Nat.le_of_not_lt hlt)
        simp [hlt, this]
    · rw [if_neg hmem]
      have : a ∉ srcToks := fun h => hmem ((counterKeys_mem srcToks a).2 h)
      have h0 : srcToks.count a = 0 := List.count_eq_zero.2 this
      simp [h0]
  · by_cases h : tgtToks.count k < srcToks.count k
    · rw [if_pos h] at hx; exact List.eq_of_mem_replicate hx
    · rw [if_neg h] at hx; exact absurd hx (List.not_mem_nil x)

lemma qaExtra_count (srcToks tgtToks : List String) (a : String) :
    (qaExtra srcToks tgtToks).count a = tgtToks.count a - srcToks.count a := by
  unfold qaExtra
  rw [count_flatMap_eqkey _ (fun k x hx => ?_) _ (counterKeys_nodup tgtToks) a]
  · by_cases hmem : a ∈ counterKeys tgtToks
    · rw [if_pos hmem]
      by_cases hlt : srcToks.count a < tgtToks.count a
      · simp [hlt]
      · have := Nat.sub_eq_zero_of_le (Nat.le_of_not_lt hlt)
        simp [hlt, this]
    · rw [if_neg hmem]
      have : a ∉ tgtToks := fun h => hmem ((counterKeys_mem tgtToks a).2 h)
      have h0 : tgtToks.count a = 0 := List.count_eq_zero.2 this
      simp [h0]
  · by_cases h : srcToks.count k < tgtToks.count k
    · rw [if_pos h] at hx; exact List.eq_of_mem_replicate hx
    · rw [if_neg h] at hx; exact absurd hx (List.not_mem_nil x)

lemma qaMissing_multiset (srcToks tgtToks : List String) :
    (↑(qaMissing srcToks tgtToks) : Multiset String) = ↑srcToks - ↑tgtToks := by
  ext a
  rw [Multiset.coe_count, Multiset.count_sub, Multiset.coe_count, Multiset.coe_count]
  exact qaMissing_count srcToks tgtToks a

lemma qaExtra_multiset (srcToks tgtToks : List String) :
    (↑(qaExtra srcToks tgtToks) : Multiset String) = ↑tgtToks - ↑srcToks := by
  ext a
  rw [Multiset.coe_count, Multiset.count_sub, Multiset.coe_count, Multiset.coe_count]
  exact qaExtra_count srcToks tgtToks a

lemma insertSorted_perm (x : String) (l : List String) :
    (insertSorted x l).Perm (x :: l) := by
  induction l with
  | nil => simp [insertSorted]
  | cons y ys ih =>
    by_cases h : lexLt y.data x.data
    · have h1 : insertSorted x (y :: ys) = y :: insertSorted x ys := by
        simp [insertSorted, h]
      rw [h1]
      exact (List.Perm.cons y ih).trans (List.Perm.swap x y ys)
    · simp [insertSorted, h]

lemma pySorted_perm (l : List String) : (pySorted l).Perm l := by
  induction l with
  | nil => simp [pySorted]
  | cons x xs ih =>
    have h1 : pySorted (x :: xs) = insertSorted x (pySorted xs) := rfl
    rw [h1]
    exact (insertSorted_perm x (pySorted xs)).trans (List.Perm.cons x ih)

lemma pySorted_multiset (l : List String) :
    (↑(pySorted l) : Multiset String) = ↑l :=
  Multiset.coe_eq_coe.2 (pySorted_perm l)

/-! ## Helper lemmas: the invalid-brace scan -/

/-- Spec-side description of the invalid-brace matches: the positions `i` of
the text holding a `{` not immediately followed by one or more digits and a
closing brace. -/
def invalidBracePositions (l : List Char) : List Nat :=
  (List.range l.length).filter fun i =>
    decide (l.getD i ' ' = '{') && !(tokenShapeAt (l.drop (i + 1)))

lemma invalidTokenMatches_eq_positions (l : List Char) :
    invalidTokenMatches l = (invalidBracePositions l).map fun _ => "\x7b" := by
  induction l with
  | nil => simp [invalidTokenMatches, invalidBracePositions]
  | cons c cs ih =>
    have hcomp : ((fun i => decide ((c :: cs).getD i ' ' = '{') &&
        !(tokenShapeAt ((c :: cs).drop (i + 1)))) ∘ Nat.succ) =
        fun i => decide (cs.getD i ' ' = '{') && !(tokenShapeAt (cs.drop (i + 1))) := rfl
    have hmapconst : ∀ ns : List Nat,
        (ns.map Nat.succ).map (fun _ => ("\x7b" : String)) = ns.map fun _ => "\x7b" := by
      intro ns; rw [List.map_map]; rfl
    by_cases hc : c = '{' ∧ tokenShapeAt cs = false
    · have hb : (decide ((c :: cs).getD 0 ' ' = '{') &&
          !(tokenShapeAt ((c :: cs).drop (0 + 1)))) = true := by
        simp only [List.getD_cons_zero, List.drop_succ_cons, List.drop_zero, hc.1, hc.2]
        simp
      calc invalidTokenMatches (c :: cs)
          = "\x7b" :: invalidTokenMatches cs := by
            simp only [invalidTokenMatches, if_pos hc, List.singleton_append]
        _ = "\x7b" :: (invalidBracePositions cs).map (fun _ => "\x7b") := by rw [ih]
        _ = (invalidBracePositions (c :: cs)).map (fun _ => "\x7b") := by
            unfold invalidBracePositions
            rw [List.length_cons, List.range_succ_eq_map, List.filter_cons, hb, if_pos rfl,
              List.map_cons, List.filter_map, hcomp, hmapconst]
    · have hb : (decide ((c :: cs).getD 0 ' ' = '{') &&
          !(tokenShapeAt ((c :: cs).drop (0 + 1)))) = false := by
        simp only [List.getD_cons_zero, List.drop_succ_cons, List.drop_zero]
        rcases not_and_or.1 hc with h | h
        · simp [h]
        · have h2 : tokenShapeAt cs = true := by
            cases h3 : tokenShapeAt cs
            · exact absurd h3 h
            · rfl
          simp [h2]
      calc invalidTokenMatches (c :: cs)
          = invalidTokenMatches cs := by
            simp only [invalidTokenMatches, if_neg hc, List.nil_append]
        _ = (invalidBracePositions cs).map (fun _ => "\x7b") := ih
        _ = (invalidBracePositions (c :: cs)).map (fun _ => "\x7b") := by
            unfold invalidBracePositions
            rw [List.length_cons, List.range_succ_eq_map, List.filter_cons, hb]
            simp only [Bool.false_eq_true, if_false, List.filter_map, hcomp, hmapconst]

/-! ## Helper lemmas: `check_unit` projections -/

lemma check_unit_qa_missing (s t st : String) :
    (check_unit s t st).qa_missing =
      if qaMissing (findTokens s.data) (findTokens t.data) ≠ [] then
        pySorted (qaMissing (findTokens s.data) (findTokens t.data))
      else [] := by
  simp only [check_unit]
  split_ifs <;> rfl

lemma check_unit_qa_extra (s t st : String) :
    (check_unit s t st).qa_extra =
      if qaExtra (findTokens s.data) (findTokens t.data) ≠ [] then
        pySorted (qaExtra (findTokens s.data) (findTokens t.data))
      else [] := by
  simp only [check_unit]
  split_ifs <;> rfl

lemma check_unit_qa_invalid (s t st : String) :
    (check_unit s t st).qa_invalid = invalidTokenMatches t.data := by
  simp only [check_unit]
  split_ifs <;> simp_all

lemma check_unit_status (s t st : String) :
    (check_unit s t st).status =
      if qaMissing (findTokens s.data) (findTokens t.data) ≠ [] ∨
         qaExtra (findTokens s.data) (findTokens t.data) ≠ [] ∨
         invalidTokenMatches t.data ≠ [] then "error"
      else if t = "" ∧ (st = "translated" ∨ st = "edited") then "warning"
      else "ok" := by
  simp only [check_unit]
  split_ifs <;> rfl

lemma check_unit_qa_missing_multiset (s t st : String) :
    (↑(check_unit s t st).qa_missing : Multiset String) =
      ↑(findTokens s.data) - ↑(findTokens t.data) := by
  rw [check_unit_qa_missing]
  split_ifs with h
  · rw [pySorted_multiset, qaMissing_multiset]
  · rw [← qaMissing_multiset, not_ne_iff.1 h]

lemma check_unit_qa_extra_multiset (s t st : String) :
    (↑(check_unit s t st).qa_extra : Multiset String) =
      ↑(findTokens t.data) - ↑(findTokens s.data) := by
  rw [check_unit_qa_extra]
  split_ifs with h
  · rw [pySorted_multiset, qaExtra_multiset]
  · rw [← qaExtra_multiset, not_ne_iff.1 h]

/-! ## Claim C10 -/

/-- C10: confirmed.  For all source and target texts, and any tags map and
unit state, the missing and extra token lists computed by
`TokenGuard.validate` are equal as multisets to the missing and extra token
lists computed by `QAChecker.check_unit` (reported sorted in its
`qa_details`) on the same source and target texts. -/
theorem claim_C10_validate_check_unit_agree
    (source_text target_text unit_state : String) (tags_map : List (String × String)) :
    (↑(TokenGuard.validate source_text target_text tags_map).missing : Multiset String) =
      ↑(check_unit source_text target_text unit_state).qa_missing ∧
    (↑(TokenGuard.validate source_text target_text tags_map).extra : Multiset String) =
      ↑(check_unit source_text target_text unit_state).qa_extra := by
  have hmv : (TokenGuard.validate source_text target_text tags_map).missing =
      qaMissing (findTokens source_text.data) (findTokens target_text.data) := rfl
  have hev : (TokenGuard.validate source_text target_text tags_map).extra =
      qaExtra (findTokens source_text.data) (findTokens target_text.data) := rfl
  constructor
  · rw [hmv, qaMissing_multiset, check_unit_qa_missing_multiset]
  · rw [hev, qaExtra_multiset, check_unit_qa_extra_multiset]

/-! ## Claim C4 -/

/-- C4: confirmed.  `check_unit` computes `missing` and `extra` as the two
multiset differences of the valid `\{\d+\}` tokens of source and target
(each under-represented token repeated by its count difference), records an
invalid entry for exactly every `{` of the target not immediately followed
by one or more digits and `}`, and decides the status in order: `error`
(with error-severity issues) iff missing, extra or invalid is non-empty;
else `warning` with a single `empty` issue iff the target text is empty and
the unit state is `translated` or `edited`; else `ok`. -/
theorem claim_C4_check_unit_correct (source_text target_text unit_state : String) :
    (↑(check_unit source_text target_text unit_state).qa_missing : Multiset String) =
      ↑(findTokens source_text.data) - ↑(findTokens target_text.data) ∧
    (↑(check_unit source_text target_text unit_state).qa_extra : Multiset String) =
      ↑(findTokens target_text.data) - ↑(findTokens source_text.data) ∧
    (check_unit source_text target_text unit_state).qa_invalid =
      (invalidBracePositions target_text.data).map (fun _ => "\x7b") ∧
    ((check_unit source_text target_text unit_state).status = "error" ↔
      (qaMissing (findTokens source_text.data) (findTokens target_text.data) ≠ [] ∨
       qaExtra (findTokens source_text.data) (findTokens target_text.data) ≠ [] ∨
       invalidTokenMatches target_text.data ≠ [])) ∧
    ((check_unit source_text target_text unit_state).status = "error" →
      (check_unit source_text target_text unit_state).issues ≠ [] ∧
      ∀ i ∈ (check_unit source_text target_text unit_state).issues, i.severity = "error") ∧
    ((check_unit source_text target_text unit_state).status = "warning" ↔
      (qaMissing (findTokens source_text.data) (findTokens target_text.data) = [] ∧
       qaExtra (findTokens source_text.data) (findTokens target_text.data) = [] ∧
       invalidTokenMatches target_text.data = [] ∧ target_text = "" ∧
       (unit_state = "translated" ∨ unit_state = "edited"))) ∧
    ((check_unit source_text target_text unit_state).status = "warning" →
      (check_unit source_text target_text unit_state).issues =
        [⟨"empty", "warning", "Empty translation", none⟩]) ∧
    ((check_unit source_text target_text unit_state).status = "ok" ↔
      (qaMissing (findTokens source_text.data) (findTokens target_text.data) = [] ∧
       qaExtra (findTokens source_text.data) (findTokens target_text.data) = [] ∧
       invalidTokenMatches target_text.data = [] ∧
       ¬ (target_text = "" ∧ (unit_state = "translated" ∨ unit_state = "edited")))) := by
  refine ⟨check_unit_qa_missing_multiset _ _ _, check_unit_qa_extra_multiset _ _ _, ?_, ?_⟩
  · rw [check_unit_qa_invalid, invalidTokenMatches_eq_positions]
  refine ⟨?_, ?_, ?_, ?_, ?_⟩
  · rw [check_unit_status]
    split_ifs with h1 h2 <;> simp_all
  · intro herr
    rw [check_unit_status] at herr
    by_cases h1 : qaMissing (findTokens source_text.data) (findTokens target_text.data) ≠ [] ∨
        qaExtra (findTokens source_text.data) (findTokens target_text.data) ≠ [] ∨
        invalidTokenMatches target_text.data ≠ []
    · have hiss : (check_unit source_text target_text unit_state).issues =
          (if qaMissing (findTokens source_text.data) (findTokens target_text.data) ≠ [] then
            [⟨"missing", "error",
              "Missing/Duplicate tokens: " ++ String.intercalate ", "
                (pySorted (qaMissing (findTokens source_text.data) (findTokens target_text.data))),
              some (pySorted (qaMissing (findTokens source_text.data)
                (findTokens target_text.data)))⟩] else [])
          ++ (if qaExtra (findTokens source_text.data) (findTokens target_text.data) ≠ [] then
            [⟨"extra", "error",
              "Extra tokens: " ++ String.intercalate ", "
                (pySorted (qaExtra (findTokens source_text.data) (findTokens target_text.data))),
              some (pySorted (qaExtra (findTokens source_text.data)
                (findTokens target_text.data)))⟩] else [])
          ++ (if invalidTokenMatches target_text.data ≠ [] then
            [⟨"invalid", "error",
              "Invalid token format: " ++ String.intercalate ", "
                ((invalidTokenMatches target_text.data).take 3),
              some (invalidTokenMatches target_text.data)⟩] else []) := by
        simp only [check_unit]
        split_ifs <;> simp_all
      constructor
      · rw [hiss]
        rcases h1 with h | h | h
        · simp [h]
        · simp [h]
        · simp [h]
      · intro i hi
        rw [hiss] at hi
        rcases List.mem_append.1 hi with hi1 | hi2
        · rcases List.mem_append.1 hi1 with hia | hib
          · split_ifs at hia <;> simp_all
          · split_ifs at hib <;> simp_all
        · split_ifs at hi2 <;> simp_all
    · rw [if_neg h1] at herr
      split_ifs at herr <;> simp_all
  · rw [check_unit_status]
    split_ifs with h1 h2 <;> simp_all <;> tauto
  · intro hw
    rw [check_unit_status] at hw
    split_ifs at hw with h1 h2
    · simp_all
    · have hwarn : (check_unit source_text target_text unit_state).issues =
          [⟨"empty", "warning", "Empty translation", none⟩] := by
        simp only [check_unit]
        split_ifs <;> simp_all
      exact hwarn
    · simp_all
  · rw [check_unit_status]
    split_ifs with h1 h2 <;> simp_all <;> tauto

/-- C4 witness: the theorem instantiated at the spec's own invalid-token
scenario, with the hypotheses of the status characterization discharged by
evaluation. -/
theorem claim_C4_check_unit_correct_witness :
    (check_unit "Hello {0}" "Hola {0} {x}" "translated").status = "error" :=
  (claim_C4_check_unit_correct "Hello {0}" "Hola {0} {x}" "translated").2.2.2.1.mpr
    (by decide)

/-! ## Claim C1 -/

/-- C1: refuted by the code.  The split invariant
`len(chunks) == len(tokens) + 1` does not always hold: on the plain input
`"A{1}{2}B"` with known keys `1` and `2` (two adjacent known tokens) the
scan produces two chunks and two tokens, because `flush_buf` declines to
emit the empty chunk between the adjacent tokens, so `split_by_known_tokens`
raises `ValueError("Split invariant violated")` on ordinary user input. -/
theorem claim_C1_split_invariant_fails :
    (splitScan ["1", "2"] "A{1}{2}B".data 0 [] [] []).1.length = 2 ∧
    (splitScan ["1", "2"] "A{1}{2}B".data 0 [] [] []).2.length = 2 ∧
    split_by_known_tokens "A{1}{2}B" [("1", "<ph/>"), ("2", "<ph/>")] =
      Except.error "Split invariant violated" :=
  ⟨rfl, rfl, rfl⟩

/-! ## Claim C3 -/

/-- C3: refuted by the code.  The exact round trip
`reassemble(*split(T, K)) == T` fails for `T = "X{1}{2}"` with known keys
`1` and `2`: the split itself raises `ValueError("Split invariant
violated")`, so the round trip produces the error rather than `T`. -/
theorem claim_C3_roundtrip_fails :
    (split_by_known_tokens "X{1}{2}" [("1", "a"), ("2", "b")]).bind
      (fun r => reassemble_from_chunks r.text_chunks r.tokens) =
      Except.error "Split invariant violated" ∧
    (Except.error "Split invariant violated" : Except String String) ≠
      Except.ok "X{1}{2}" :=
  ⟨rfl, fun h => Except.noConfusion h⟩

/-! ## Claim C6 -/

lemma fallbackScan_no_tokens : ∀ (cs : List Char) (c : Nat),
    (TagAbstractor.fallbackScan cs c 0).2 = [] →
    (TagAbstractor.fallbackScan cs c 0).1 = cs := by
  intro cs
  induction cs with
  | nil => intro c _; rfl
  | cons ch cs ih =>
    intro c h
    cases hm : TagAbstractor.matchInlineTagLen (ch :: cs) with
    | some l =>
      exfalso
      have h2 : (TagAbstractor.fallbackScan (ch :: cs) c 0).2 =
          (Nat.repr c, String.mk ((ch :: cs).take l)) ::
            (TagAbstractor.fallbackScan cs (c + 1) (l - 1)).2 := by
        simp [TagAbstractor.fallbackScan, hm]
      rw [h2] at h
      exact List.noConfusion h
    | none =>
      have h1 : (TagAbstractor.fallbackScan (ch :: cs) c 0).1 =
          ch :: (TagAbstractor.fallbackScan cs c 0).1 := by
        simp [TagAbstractor.fallbackScan, hm]
      have h2 : (TagAbstractor.fallbackScan (ch :: cs) c 0).2 =
          (TagAbstractor.fallbackScan cs c 0).2 := by
        simp [TagAbstractor.fallbackScan, hm]
      rw [h1, ih c (h2 ▸ h)]

/-- C6: confirmed.  `abstract` is total: in the embedding it is a function
into `AbstractionResult`; the empty input returns `("", {})`; whenever XML
parsing fails the result is exactly the regex fallback (the `except` branch
never re-raises), and the fallback always succeeds structurally — in the
worst case it records zero tokens and returns the text as-is. -/
theorem claim_C6_abstract_total :
    TagAbstractor.abstract "" = ⟨"", []⟩ ∧
    (∀ s : String, parseFragment s = none →
      TagAbstractor.abstract s = TagAbstractor.fallbackAbstract s) ∧
    (∀ s : String, (TagAbstractor.fallbackAbstract s).tags_map = [] →
      (TagAbstractor.fallbackAbstract s).abstracted_text = s) := by
  refine ⟨rfl, ?_, ?_⟩
  · intro s h
    by_cases hs : s = ""
    · subst hs
      exact absurd h (by simp [parseFragment, parseContent])
    · simp [TagAbstractor.abstract, hs, h]
  · intro s h
    have h1 := fallbackScan_no_tokens s.data 1 h
    show String.mk (TagAbstractor.fallbackScan s.data 1 0).1 = s
    rw [h1]

/-- C6 witness: a malformed fragment is routed to the fallback, and a
fallback run recording no tokens returns its input unchanged. -/
theorem claim_C6_abstract_total_witness :
    parseFragment "<q" = none ∧
    TagAbstractor.abstract "<q" = TagAbstractor.fallbackAbstract "<q" ∧
    (TagAbstractor.fallbackAbstract "hello").tags_map = [] ∧
    (TagAbstractor.fallbackAbstract "hello").abstracted_text = "hello" :=
  ⟨rfl, claim_C6_abstract_total.2.1 "<q" rfl, rfl,
    claim_C6_abstract_total.2.2 "hello" rfl⟩

/-! ## Claim C7 -/

/-- Top-level child elements whose local name is in the inline catalog, in
document order (nested occurrences are part of their ancestor and are not
listed). -/
def recognizedEls : XmlChildren → List XmlNode
  | .nil => []
  | .cons (XmlNode.el nm attrs txt ch) _ rest =>
    if nm ∈ INLINE_TAG_LOCALNAMES then
      XmlNode.el nm attrs txt ch :: recognizedEls rest
    else recognizedEls rest
  | .cons (XmlNode.comment _) _ rest => recognizedEls rest

lemma walkItems_map_fst : ∀ (items : XmlChildren) (c : Nat),
    ((TagAbstractor.walkItems items c).2).map Prod.fst =
      (List.range' c (recognizedEls items).length).map Nat.repr
  | .nil, c => by simp [TagAbstractor.walkItems, recognizedEls]
  | .cons (XmlNode.el nm attrs txt ch) tail rest, c => by
    by_cases h : nm ∈ INLINE_TAG_LOCALNAMES
    · have ih := walkItems_map_fst rest (c + 1)
      simp [TagAbstractor.walkItems, recognizedEls, h, ih, List.range'_succ]
    · have ih := walkItems_map_fst rest c
      simp [TagAbstractor.walkItems, recognizedEls, h, ih]
  | .cons (XmlNode.comment cm) tail rest, c => by
    have ih := walkItems_map_fst rest c
    simp [TagAbstractor.walkItems, recognizedEls, ih]

lemma walkItems_map_snd : ∀ (items : XmlChildren) (c : Nat),
    ((TagAbstractor.walkItems items c).2).map Prod.snd =
      (recognizedEls items).map fun e => strip_xmlns (serializeNode e)
  | .nil, c => by simp [TagAbstractor.walkItems, recognizedEls]
  | .cons (XmlNode.el nm attrs txt ch) tail rest, c => by
    by_cases h : nm ∈ INLINE_TAG_LOCALNAMES
    · have ih := walkItems_map_snd rest (c + 1)
      simp [TagAbstractor.walkItems, recognizedEls, h, ih]
    · have ih := walkItems_map_snd rest c
      simp [TagAbstractor.walkItems, recognizedEls, h, ih]
  | .cons (XmlNode.comment cm) tail rest, c => by
    have ih := walkItems_map_snd rest c
    simp [TagAbstractor.walkItems, recognizedEls, ih]

/-- C7: confirmed.  On the primary path, for a fragment with exactly `k`
catalog-recognized top-level inline elements, `tags_map` has exactly `k`
entries with keys `"1"` through `"k"` assigned in document order by a
counter starting at 1 that increments once per token regardless of tag
name; each recognized element is collapsed into exactly one entry holding
its full serialization (nested content included, modulo namespace
stripping), and `abstract` takes this path exactly when parsing succeeds. -/
theorem claim_C7_abstract_keys (frag : Fragment) :
    ((TagAbstractor.primaryAbstract frag).tags_map.map Prod.fst =
      (List.range' 1 (recognizedEls frag.items).length).map Nat.repr) ∧
    ((TagAbstractor.primaryAbstract frag).tags_map.map Prod.snd =
      (recognizedEls frag.items).map fun e => strip_xmlns (serializeNode e)) ∧
    (TagAbstractor.primaryAbstract frag).tags_map.length =
      (recognizedEls frag.items).length ∧
    ∀ s : String, parseFragment s = some frag →
      TagAbstractor.abstract s = TagAbstractor.primaryAbstract frag := by
  refine ⟨walkItems_map_fst frag.items 1, walkItems_map_snd frag.items 1, ?_, ?_⟩
  · have h := walkItems_map_fst frag.items 1
    have h1 := congrArg List.length h
    simpa using h1
  · intro s hp
    by_cases hs : s = ""
    · subst hs
      have hfrag : frag = ⟨"", XmlChildren.nil⟩ := by
        have : parseFragment "" = some ⟨"", XmlChildren.nil⟩ := rfl
        rw [this] at hp
        exact (Option.some.inj hp).symm
      subst hfrag
      rfl
    · simp [TagAbstractor.abstract, hs, hp]

/-- C7 witness: a concrete fragment parsed on the primary path. -/
theorem claim_C7_abstract_keys_witness :
    parseFragment "A<ph/>B" =
      some ⟨"A", XmlChildren.cons (XmlNode.el "ph" [] "" XmlChildren.nil) "B"
        XmlChildren.nil⟩ ∧
    TagAbstractor.abstract "A<ph/>B" =
      TagAbstractor.primaryAbstract
        ⟨"A", XmlChildren.cons (XmlNode.el "ph" [] "" XmlChildren.nil) "B"
          XmlChildren.nil⟩ :=
  ⟨rfl, (claim_C7_abstract_keys _).2.2.2 "A<ph/>B" rfl⟩

/-! ## Helper lemmas: digit scanning and token lists -/

lemma takeDigits_fst_digits : ∀ cs : List Char, ∀ c ∈ (takeDigits cs).1, c.isDigit = true := by
  intro cs
  induction cs with
  | nil => intro c hc; simp [takeDigits] at hc
  | cons x xs ih =>
    intro c hc
    by_cases hx : x.isDigit = true
    · rw [show takeDigits (x :: xs) = (x :: (takeDigits xs).1, (takeDigits xs).2) from by
        simp [takeDigits, hx]] at hc
      rcases List.mem_cons.1 hc with rfl | hc
      · exact hx
      · exact ih c hc
    · rw [show takeDigits (x :: xs) = ([], x :: xs) from by simp [takeDigits, hx]] at hc
      simp at hc

lemma takeDigits_structure : ∀ cs : List Char, (takeDigits cs).1 ++ (takeDigits cs).2 = cs := by
  intro cs
  induction cs with
  | nil => rfl
  | cons x xs ih =>
    by_cases hx : x.isDigit = true
    · simp [takeDigits, hx, ih]
    · simp [takeDigits, hx]

lemma takeDigits_digits_brace (d rest : List Char) (hd : ∀ c ∈ d, c.isDigit = true) :
    takeDigits (d ++ '}' :: rest) = (d, '}' :: rest) := by
  induction d with
  | nil =>
    have h : ('}' : Char).isDigit = false := rfl
    simp [takeDigits, h]
  | cons c cs ih =>
    have hc : c.isDigit = true := hd c (List.mem_cons_self c cs)
    have ih2 := ih fun x hx => hd x (List.mem_cons_of_mem c hx)
    simp [takeDigits, hc, ih2]

lemma takeDigits_append (b : List Char) (hb : b = [] ∨ ∃ bs, b = '{' :: bs) :
    ∀ a : List Char, takeDigits (a ++ b) = ((takeDigits a).1, (takeDigits a).2 ++ b) := by
  intro a
  induction a with
  | nil =>
    rcases hb with rfl | ⟨bs, rfl⟩
    · rfl
    · have h : ('{' : Char).isDigit = false := rfl
      simp [takeDigits, h]
  | cons x xs ih =>
    by_cases hx : x.isDigit = true
    · simp [takeDigits, hx, ih]
    · simp [takeDigits, hx]

lemma findTokens_cons_ne (c : Char) (cs : List Char) (hc : ¬ c = '{') :
    findTokens (c :: cs) = findTokens cs := by
  simp [findTokens, hc]

lemma findTokens_brace_eq (cs : List Char) :
    findTokens ('{' :: cs) =
      (match takeDigits cs with
       | (d, r1 :: _) =>
         if r1 = '}' then
           if d.isEmpty then findTokens cs
           else ("\x7b" ++ String.mk d ++ "\x7d") :: findTokens cs
         else findTokens cs
       | (_, []) => findTokens cs) := by
  simp [findTokens]

lemma findTokens_brace_match (cs : List Char) (d r : List Char)
    (hd : takeDigits cs = (d, '}' :: r)) (hde : d.isEmpty = false) :
    findTokens ('{' :: cs) = ("\x7b" ++ String.mk d ++ "\x7d") :: findTokens cs := by
  rw [findTokens_brace_eq, hd]
  simp [hde]

lemma findTokens_cons_subset (c : Char) (cs : List Char) :
    ∀ t ∈ findTokens cs, t ∈ findTokens (c :: cs) := by
  intro t ht
  by_cases hc : c = '{'
  · subst hc
    rw [findTokens_brace_eq]
    rcases hd : takeDigits cs with ⟨d, r⟩
    cases r with
    | nil => exact ht
    | cons r1 rr =>
      by_cases h1 : r1 = '}'
      · by_cases h2 : d.isEmpty = true
        · simpa [h1, h2] using ht
        · have h3 : t ∈ ("\x7b" ++ String.mk d ++ "\x7d") :: findTokens cs :=
            List.mem_cons_of_mem _ ht
          simpa [h1, h2] using h3
      · simpa [h1] using ht
  · rw [findTokens_cons_ne c cs hc]
    exact ht

lemma findTokens_nobrace_append : ∀ (p y : List Char), (∀ x ∈ p, ¬ x = '{') →
    findTokens (p ++ y) = findTokens y := by
  intro p
  induction p with
  | nil => intro y _; rfl
  | cons x xs ih =>
    intro y hp
    rw [List.cons_append, findTokens_cons_ne x (xs ++ y) (hp x (List.mem_cons_self x xs)),
      ih y fun z hz => hp z (List.mem_cons_of_mem x hz)]

lemma isDigit_ne_brace {c : Char} (h : c.isDigit = true) : ¬ c = '{' := by
  intro hc
  subst hc
  exact Bool.noConfusion h

/-- The captured key of a `{digits}` token: the characters between the
braces. -/
def tokenKey (t : String) : String := String.mk (t.data.drop 1).dropLast

lemma tokenKey_of_token (d : List Char) :
    tokenKey ("\x7b" ++ String.mk d ++ "\x7d") = String.mk d := by
  show String.mk (List.dropLast (List.drop 1 ('{' :: (d ++ ['}'])))) = String.mk d
  rw [List.drop_one, List.tail_cons, List.dropLast_concat]

/-! ## Helper lemmas: the reconstruction scan -/

lemma reconstructScan_skip (tm : List (String × String)) :
    ∀ (x l : List Char), TagAbstractor.reconstructScan tm (x ++ l) x.length =
      TagAbstractor.reconstructScan tm l 0 := by
  intro x
  induction x with
  | nil => intro l; rfl
  | cons c cs ih => intro l; exact ih l

lemma reconstructScan_brace_eq (tm : List (String × String)) (cs : List Char) :
    TagAbstractor.reconstructScan tm ('{' :: cs) 0 =
      (match takeDigits cs with
       | (d, r1 :: _) =>
         if r1 = '}' then
           if d.isEmpty then '{' :: TagAbstractor.reconstructScan tm cs 0
           else
             (match TagAbstractor.lookupTag tm (String.mk d) with
              | some v => v.data
              | none => '{' :: d ++ ['}']) ++
               TagAbstractor.reconstructScan tm cs (d.length + 1)
         else '{' :: TagAbstractor.reconstructScan tm cs 0
       | (_, []) => '{' :: TagAbstractor.reconstructScan tm cs 0) := by
  simp [TagAbstractor.reconstructScan]

lemma reconstructScan_cons_ne (tm : List (String × String)) (c : Char) (cs : List Char)
    (hc : ¬ c = '{') :
    TagAbstractor.reconstructScan tm (c :: cs) 0 =
      c :: TagAbstractor.reconstructScan tm cs 0 := by
  simp [TagAbstractor.reconstructScan, hc]

lemma reconstructScan_token (tm : List (String × String)) (d rest : List Char)
    (hd : ∀ c ∈ d, c.isDigit = true) (hne : d.isEmpty = false) :
    TagAbstractor.reconstructScan tm ('{' :: (d ++ '}' :: rest)) 0 =
      (match TagAbstractor.lookupTag tm (String.mk d) with
       | some v => v.data
       | none => '{' :: d ++ ['}']) ++ TagAbstractor.reconstructScan tm rest 0 := by
  have ht := takeDigits_digits_brace d rest hd
  have hskip : TagAbstractor.reconstructScan tm (d ++ '}' :: rest) (d.length + 1) =
      TagAbstractor.reconstructScan tm rest 0 := by
    have h1 : d ++ '}' :: rest = (d ++ ['}']) ++ rest := by simp
    have h2 : (d ++ ['}']).length = d.length + 1 := by simp
    rw [h1, ← h2, reconstructScan_skip]
  rw [reconstructScan_brace_eq, ht]
  simp [hne, hskip]

lemma reconstructScan_passthrough (tm : List (String × String)) (b : List Char)
    (hb : b = [] ∨ ∃ bs, b = '{' :: bs) :
    ∀ (n : Nat) (a : List Char), a.length ≤ n →
      (∀ t ∈ findTokens a, TagAbstractor.lookupTag tm (tokenKey t) = none) →
      TagAbstractor.reconstructScan tm (a ++ b) 0 =
        a ++ TagAbstractor.reconstructScan tm b 0 := by
  intro n
  induction n with
  | zero =>
    intro a ha _
    have h0 : a = [] := List.length_eq_zero.1 (Nat.le_zero.1 ha)
    subst h0; rfl
  | succ n ih =>
    intro a ha htok
    match a with
    | [] => rfl
    | c :: a' =>
      have ha' : a'.length ≤ n := Nat.le_of_succ_le_succ ha
      by_cases hc : c = '{'
      · subst hc
        have hcomb : takeDigits (a' ++ b) = ((takeDigits a').1, (takeDigits a').2 ++ b) :=
          takeDigits_append b hb a'
        rcases hd : takeDigits a' with ⟨d, r⟩
        rw [hd] at hcomb
        have htok' : ∀ t ∈ findTokens a', TagAbstractor.lookupTag tm (tokenKey t) = none :=
          fun t ht => htok t (findTokens_cons_subset '{' a' t ht)
        match r with
        | [] =>
          have hstep : TagAbstractor.reconstructScan tm ('{' :: (a' ++ b)) 0 =
              '{' :: TagAbstractor.reconstructScan tm (a' ++ b) 0 := by
            rw [reconstructScan_brace_eq, hcomb]
            rcases hb with rfl | ⟨bs, rfl⟩
            · rfl
            · simp
          rw [List.cons_append, hstep, ih a' ha' htok']
          rfl
        | rc :: rr =>
          by_cases hrc : rc = '}'
          · subst hrc
            by_cases hde : d.isEmpty = true
            · have hstep : TagAbstractor.reconstructScan tm ('{' :: (a' ++ b)) 0 =
                  '{' :: TagAbstractor.reconstructScan tm (a' ++ b) 0 := by
                rw [reconstructScan_brace_eq, hcomb]
                simp [hde]
              rw [List.cons_append, hstep, ih a' ha' htok']
              rfl
            · have hde' : d.isEmpty = false := by
                cases h : d.isEmpty
                · rfl
                · exact absurd h (by simp_all)
              have hdd : ∀ x ∈ d, x.isDigit = true := by
                have h := takeDigits_fst_digits a'
                rw [hd] at h
                exact h
              have hsplit : a' = d ++ '}' :: rr := by
                have h := takeDigits_structure a'
                rw [hd] at h
                exact h.symm
              have hmem : ("\x7b" ++ String.mk d ++ "\x7d") ∈ findTokens ('{' :: a') := by
                rw [findTokens_brace_match a' d rr hd hde']
                exact List.mem_cons_self _ _
              have hlook : TagAbstractor.lookupTag tm (String.mk d) = none := by
                have h := htok _ hmem
                rwa [tokenKey_of_token] at h
              have hstep : TagAbstractor.reconstructScan tm ('{' :: (a' ++ b)) 0 =
                  '{' :: d ++ '}' :: TagAbstractor.reconstructScan tm (rr ++ b) 0 := by
                have h1 : a' ++ b = d ++ '}' :: (rr ++ b) := by
                  rw [hsplit]; simp
                rw [h1, reconstructScan_token tm d (rr ++ b) hdd hde', hlook]
                simp
              have hnb : ∀ x ∈ d ++ ['}'], ¬ x = '{' := by
                intro x hx
                rcases List.mem_append.1 hx with hx | hx
                · exact isDigit_ne_brace (hdd x hx)
                · rw [List.mem_singleton.1 hx]
                  decide
              have htokrr : ∀ t ∈ findTokens rr,
                  TagAbstractor.lookupTag tm (tokenKey t) = none := by
                intro t ht
                apply htok'
                rw [hsplit, show d ++ '}' :: rr = (d ++ ['}']) ++ rr from by simp,
                  findTokens_nobrace_append (d ++ ['}']) rr hnb]
                exact ht
              have hrr : rr.length ≤ n := by
                have hlen : a'.length = d.length + (rr.length + 1) := by
                  rw [hsplit]; simp [List.length_append]
                omega
              rw [List.cons_append, hstep, ih rr hrr htokrr, hsplit]
              simp
          · have hstep : TagAbstractor.reconstructScan tm ('{' :: (a' ++ b)) 0 =
                '{' :: TagAbstractor.reconstructScan tm (a' ++ b) 0 := by
              rw [reconstructScan_brace_eq, hcomb]
              simp [hrc]
            rw [List.cons_append, hstep, ih a' ha' htok']
            rfl
      · rw [List.cons_append, reconstructScan_cons_ne tm c (a' ++ b) hc,
          ih a' ha' fun t ht => htok t (findTokens_cons_subset c a' t ht)]
        rfl

/-! ## Claim C8 -/

/-- C8: confirmed.  `reconstruct` never raises (it is a total function of
its inputs by construction), substitutes the stored markup fragment for
each `\{(\d+)\}` match whose captured digit string is a key of `tags_map`,
leaves the literal `{N}` text unchanged for every match whose key is not
present, and leaves all non-matching text unchanged: a text none of whose
tokens carries a known key is returned verbatim, and a known token
embedded after such text is replaced by exactly its stored fragment with
the surrounding scan continuing after it. -/
theorem claim_C8_reconstruct_permissive (tags_map : List (String × String)) :
    (∀ s : String,
      (∀ t ∈ findTokens s.data, TagAbstractor.lookupTag tags_map (tokenKey t) = none) →
      TagAbstractor.reconstruct s tags_map = s) ∧
    (∀ (pre rest d : List Char) (v : String),
      (∀ c ∈ d, c.isDigit = true) → d.isEmpty = false →
      TagAbstractor.lookupTag tags_map (String.mk d) = some v →
      (∀ t ∈ findTokens pre, TagAbstractor.lookupTag tags_map (tokenKey t) = none) →
      TagAbstractor.reconstructScan tags_map (pre ++ '{' :: (d ++ '}' :: rest)) 0 =
        pre ++ v.data ++ TagAbstractor.reconstructScan tags_map rest 0) := by
  constructor
  · intro s htok
    show String.mk (TagAbstractor.reconstructScan tags_map s.data 0) = s
    have h := reconstructScan_passthrough tags_map [] (Or.inl rfl) s.data.length s.data
      le_rfl htok
    rw [List.append_nil] at h
    rw [h, show TagAbstractor.reconstructScan tags_map [] 0 = [] from rfl, List.append_nil]
  · intro pre rest d v hd hde hlook htokpre
    have hb : ('{' :: (d ++ '}' :: rest) : List Char) = [] ∨
        ∃ bs, ('{' :: (d ++ '}' :: rest) : List Char) = '{' :: bs :=
      Or.inr ⟨d ++ '}' :: rest, rfl⟩
    rw [reconstructScan_passthrough tags_map ('{' :: (d ++ '}' :: rest)) hb pre.length pre
      le_rfl htokpre, reconstructScan_token tags_map d rest hd hde, hlook]
    simp

/-- C8 witness: a token with an unknown key is kept literally; the
substitution equation holds at a concrete known key. -/
theorem claim_C8_reconstruct_permissive_witness :
    (∀ t ∈ findTokens "a{9}b".data,
      TagAbstractor.lookupTag [("1", "<ph/>")] (tokenKey t) = none) ∧
    TagAbstractor.reconstruct "a{9}b" [("1", "<ph/>")] = "a{9}b" :=
  ⟨by decide, (claim_C8_reconstruct_permissive [("1", "<ph/>")]).1 "a{9}b" (by decide)⟩

/-! ## Helper lemmas: decimal representations of the counter -/

lemma digitChar_isDigit (m : Nat) (h : m < 10) : (Nat.digitChar m).isDigit = true := by
  interval_cases m <;> rfl

lemma toDigitsCore_digits : ∀ (f n : Nat) (acc : List Char),
    (∀ c ∈ acc, c.isDigit = true) →
    ∀ c ∈ Nat.toDigitsCore 10 f n acc, c.isDigit = true := by
  intro f
  induction f with
  | zero => intro n acc hacc; simpa [Nat.toDigitsCore] using hacc
  | succ f ih =>
    intro n acc hacc c hc
    rw [Nat.toDigitsCore] at hc
    have hmod : (Nat.digitChar (n % 10)).isDigit = true :=
      digitChar_isDigit (n % 10) (Nat.mod_lt n (by norm_num))
    by_cases hn : n / 10 = 0
    · simp only [hn, if_pos rfl] at hc
      rcases List.mem_cons.1 hc with rfl | hc
      · exact hmod
      · exact hacc c hc
    · simp only [hn, if_neg hn] at hc
      refine ih (n / 10) (Nat.digitChar (n % 10) :: acc) ?_ c hc
      intro x hx
      rcases List.mem_cons.1 hx with rfl | hx
      · exact hmod
      · exact hacc x hx

lemma repr_data_digits (n : Nat) : ∀ c ∈ (Nat.repr n).data, c.isDigit = true := by
  intro c hc
  exact toDigitsCore_digits (n + 1) n [] (by simp) c hc

lemma toDigitsCore_length_le : ∀ (f n : Nat) (acc : List Char),
    acc.length ≤ (Nat.toDigitsCore 10 f n acc).length := by
  intro f
  induction f with
  | zero => intro n acc; simp [Nat.toDigitsCore]
  | succ f ih =>
    intro n acc
    simp only [Nat.toDigitsCore]
    by_cases hn : n / 10 = 0
    · simp [hn]
    · rw [if_neg hn]
      have h := ih (n / 10) (Nat.digitChar (n % 10) :: acc)
      simp only [List.length_cons] at h
      omega

lemma repr_data_ne_nil (n : Nat) : ((Nat.repr n).data).isEmpty = false := by
  have h : (Nat.repr n).data = Nat.toDigitsCore 10 (n + 1) n [] := rfl
  rw [h]
  simp only [Nat.toDigitsCore]
  by_cases hn : n / 10 = 0
  · simp [hn]
  · rw [if_neg hn]
    have hlen := toDigitsCore_length_le n (n / 10) [Nat.digitChar (n % 10)]
    cases hres : Nat.toDigitsCore 10 n (n / 10) [Nat.digitChar (n % 10)] with
    | nil => rw [hres] at hlen; simp at hlen
    | cons x xs => rfl

/-! ## Claim C2 -/

lemma string_data_append (a b : String) : (a ++ b).data = a.data ++ b.data := rfl

lemma string_append_empty (s : String) : s ++ "" = s := by
  show String.mk (s.data ++ []) = s
  rw [List.append_nil]

lemma string_append_assoc (a b c : String) : a ++ b ++ c = a ++ (b ++ c) := by
  show String.mk ((a.data ++ b.data) ++ c.data) = String.mk (a.data ++ (b.data ++ c.data))
  rw [List.append_assoc]

/-- The literal runs of the abstracted text (the text between consecutive
placeholders: pending plain text, tails, and serialized unrecognized
nodes) and the stored values, in order.  The first argument accumulates
the pending run. -/
def runsValues : XmlChildren → String → List String × List String
  | .nil, pending => ([pending], [])
  | .cons (XmlNode.el nm attrs t ch) tail rest, pending =>
    if nm ∈ INLINE_TAG_LOCALNAMES then
      let r := runsValues rest tail
      (pending :: r.1, strip_xmlns (serializeNode (XmlNode.el nm attrs t ch)) :: r.2)
    else
      runsValues rest
        (pending ++ strip_xmlns (serializeNode (XmlNode.el nm attrs t ch) ++ tail))
  | .cons (XmlNode.comment cm) tail rest, pending =>
    runsValues rest
      (pending ++ strip_xmlns (serializeNode (XmlNode.comment cm) ++ tail))

/-- Interleaves literal runs with the placeholders `{c}`, `{c+1}`, …. -/
def interleavePH : List String → Nat → String
  | [], _ => ""
  | [r], _ => r
  | r :: r2 :: rs, c =>
    r ++ ("\x7b" ++ Nat.repr c ++ "\x7d") ++ interleavePH (r2 :: rs) (c + 1)

/-- Interleaves literal runs with substituted values. -/
def joinRV : List String → List String → String
  | [], _ => ""
  | [r], _ => r
  | r :: r2 :: rs, [] => r
  | r :: r2 :: rs, v :: vs => r ++ v ++ joinRV (r2 :: rs) vs

/-- Spec-side description of the ideal round trip: each recognized tag
reproduced as its serialization modulo namespace-declaration stripping, in
place, with all other content exactly as abstraction emitted it. -/
def specRoundTripItems : XmlChildren → String
  | .nil => ""
  | .cons (XmlNode.el nm attrs t ch) tail rest =>
    (if nm ∈ INLINE_TAG_LOCALNAMES then
      strip_xmlns (serializeNode (XmlNode.el nm attrs t ch)) ++ tail
    else strip_xmlns (serializeNode (XmlNode.el nm attrs t ch) ++ tail)) ++
      specRoundTripItems rest
  | .cons (XmlNode.comment cm) tail rest =>
    strip_xmlns (serializeNode (XmlNode.comment cm) ++ tail) ++ specRoundTripItems rest

lemma runsValues_length : ∀ (items : XmlChildren) (p : String),
    (runsValues items p).1.length = (runsValues items p).2.length + 1
  | .nil, p => rfl
  | .cons (XmlNode.el nm attrs t ch) tail rest, p => by
    by_cases h : nm ∈ INLINE_TAG_LOCALNAMES
    · simp [runsValues, h, runsValues_length rest tail]
    · simp only [runsValues, if_neg h]
      exact runsValues_length rest _
  | .cons (XmlNode.comment cm) tail rest, p => by
    simp only [runsValues]
    exact runsValues_length rest _

lemma runsValues_snd : ∀ (items : XmlChildren) (p : String),
    (runsValues items p).2 = (recognizedEls items).map fun e => strip_xmlns (serializeNode e)
  | .nil, p => rfl
  | .cons (XmlNode.el nm attrs t ch) tail rest, p => by
    by_cases h : nm ∈ INLINE_TAG_LOCALNAMES
    · simp [runsValues, recognizedEls, h, runsValues_snd rest tail]
    · simp only [runsValues, recognizedEls, if_neg h]
      exact runsValues_snd rest _
  | .cons (XmlNode.comment cm) tail rest, p => by
    simp only [runsValues, recognizedEls]
    exact runsValues_snd rest _

lemma interleave_runsValues : ∀ (items : XmlChildren) (c : Nat) (p : String),
    interleavePH (runsValues items p).1 c = p ++ (TagAbstractor.walkItems items c).1
  | .nil, c, p => by
    simp [runsValues, TagAbstractor.walkItems, interleavePH, string_append_empty]
  | .cons (XmlNode.el nm attrs t ch) tail rest, c, p => by
    by_cases h : nm ∈ INLINE_TAG_LOCALNAMES
    · have hlen := runsValues_length rest tail
      have ih := interleave_runsValues rest (c + 1) tail
      have hrv : runsValues (XmlChildren.cons (XmlNode.el nm attrs t ch) tail rest) p =
          (p :: (runsValues rest tail).1,
            strip_xmlns (serializeNode (XmlNode.el nm attrs t ch)) ::
              (runsValues rest tail).2) := by
        simp only [runsValues, if_pos h]
      rcases hr : (runsValues rest tail).1 with _ | ⟨r1, rs⟩
      · rw [hr] at hlen; simp at hlen
      · rw [hr] at ih
        rw [hrv]
        simp only [hr]
        rw [show interleavePH (p :: r1 :: rs) c =
          p ++ ("\x7b" ++ Nat.repr c ++ "\x7d") ++ interleavePH (r1 :: rs) (c + 1) from rfl]
        rw [ih]
        simp only [TagAbstractor.walkItems, if_pos h]
        simp [string_append_assoc]
    · have ih := interleave_runsValues rest c
        (p ++ strip_xmlns (serializeNode (XmlNode.el nm attrs t ch) ++ tail))
      simp only [runsValues, if_neg h]
      rw [ih]
      simp only [TagAbstractor.walkItems, if_neg h]
      simp [string_append_assoc]
  | .cons (XmlNode.comment cm) tail rest, c, p => by
    have ih := interleave_runsValues rest c
      (p ++ strip_xmlns (serializeNode (XmlNode.comment cm) ++ tail))
    simp only [runsValues]
    rw [ih]
    simp only [TagAbstractor.walkItems]
    simp [string_append_assoc]

lemma joinRV_runsValues : ∀ (items : XmlChildren) (p : String),
    joinRV (runsValues items p).1 (runsValues items p).2 = p ++ specRoundTripItems items
  | .nil, p => by
    simp [runsValues, specRoundTripItems, joinRV, string_append_empty]
  | .cons (XmlNode.el nm attrs t ch) tail rest, p => by
    by_cases h : nm ∈ INLINE_TAG_LOCALNAMES
    · have hlen := runsValues_length rest tail
      have ih := joinRV_runsValues rest tail
      have hrv : runsValues (XmlChildren.cons (XmlNode.el nm attrs t ch) tail rest) p =
          (p :: (runsValues rest tail).1,
            strip_xmlns (serializeNode (XmlNode.el nm attrs t ch)) ::
              (runsValues rest tail).2) := by
        simp only [runsValues, if_pos h]
      rcases hr : (runsValues rest tail).1 with _ | ⟨r1, rs⟩
      · rw [hr] at hlen; simp at hlen
      · rw [hr] at ih
        rw [hrv]
        simp only [hr]
        rw [show joinRV (p :: r1 :: rs)
            (strip_xmlns (serializeNode (XmlNode.el nm attrs t ch)) ::
              (runsValues rest tail).2) =
          p ++ strip_xmlns (serializeNode (XmlNode.el nm attrs t ch)) ++
            joinRV (r1 :: rs) (runsValues rest tail).2 from rfl]
        rw [ih]
        simp only [specRoundTripItems, if_pos h]
        simp [string_append_assoc]
    · have ih := joinRV_runsValues rest
        (p ++ strip_xmlns (serializeNode (XmlNode.el nm attrs t ch) ++ tail))
      simp only [runsValues, if_neg h]
      rw [ih]
      simp only [specRoundTripItems, if_neg h]
      simp [string_append_assoc]
  | .cons (XmlNode.comment cm) tail rest, p => by
    have ih := joinRV_runsValues rest
      (p ++ strip_xmlns (serializeNode (XmlNode.comment cm) ++ tail))
    simp only [runsValues]
    rw [ih]
    simp only [specRoundTripItems]
    simp [string_append_assoc]

lemma lookupTag_nodup (tm : List (String × String)) (hnd : (tm.map Prod.fst).Nodup) :
    ∀ (k v : String), (k, v) ∈ tm → TagAbstractor.lookupTag tm k = some v := by
  induction tm with
  | nil => intro k v hkv; simp at hkv
  | cons e rest ih =>
    intro k v hkv
    rcases e with ⟨k', v'⟩
    rw [List.map_cons, List.nodup_cons] at hnd
    rcases hnd with ⟨hk', hnd'⟩
    rcases List.mem_cons.1 hkv with heq | hmem
    · rw [Prod.mk.injEq] at heq
      rcases heq with ⟨rfl, rfl⟩
      simp [TagAbstractor.lookupTag]
    · have hk : ¬ k' = k := by
        intro hcontra
        subst hcontra
        exact hk' (by simpa using List.mem_map_of_mem Prod.fst hmem)
      simp only [TagAbstractor.lookupTag, if_neg hk]
      exact ih hnd' k v hmem

lemma lookup_positional (tm : List (String × String)) (hnd : (tm.map Prod.fst).Nodup)
    (i : Nat) (h : i < tm.length) :
    TagAbstractor.lookupTag tm (tm.get ⟨i, h⟩).1 = some (tm.get ⟨i, h⟩).2 := by
  apply lookupTag_nodup tm hnd
  have hmem := List.get_mem tm i h
  simpa using hmem

lemma reconstruct_interleave (tm : List (String × String)) :
    ∀ (vals runs : List String) (c : Nat),
      runs.length = vals.length + 1 →
      (∀ r ∈ runs, ∀ t ∈ findTokens r.data,
        TagAbstractor.lookupTag tm (tokenKey t) = none) →
      (∀ (i : Nat) (h : i < vals.length),
        TagAbstractor.lookupTag tm (Nat.repr (c + i)) = some (vals.get ⟨i, h⟩)) →
      TagAbstractor.reconstructScan tm (interleavePH runs c).data 0 =
        (joinRV runs vals).data := by
  intro vals
  induction vals with
  | nil =>
    intro runs c hlen hruns _
    obtain ⟨r, rfl⟩ : ∃ r, runs = [r] := by
      cases runs with
      | nil => simp at hlen
      | cons r rs =>
        cases rs with
        | nil => exact ⟨r, rfl⟩
        | cons r2 rs2 => simp at hlen
    have hr := hruns r (List.mem_cons_self r [])
    have h := reconstructScan_passthrough tm [] (Or.inl rfl) r.data.length r.data le_rfl hr
    rw [List.append_nil] at h
    show TagAbstractor.reconstructScan tm r.data 0 = r.data
    rw [h, show TagAbstractor.reconstructScan tm [] 0 = [] from rfl, List.append_nil]
  | cons v vs ih =>
    intro runs c hlen hruns hlook
    obtain ⟨r, r2, rs2, rfl⟩ : ∃ r r2 rs2, runs = r :: r2 :: rs2 := by
      cases runs with
      | nil => simp at hlen
      | cons r rs =>
        cases rs with
        | nil => simp at hlen
        | cons r2 rs2 => exact ⟨r, r2, rs2, rfl⟩
    have hlb : ("\x7b" : String).data = ['{'] := rfl
    have hrb : ("\x7d" : String).data = ['}'] := rfl
    have hdata : (interleavePH (r :: r2 :: rs2) c).data =
        r.data ++ ('{' :: ((Nat.repr c).data ++ '}' ::
          (interleavePH (r2 :: rs2) (c + 1)).data)) := by
      show (r ++ ("\x7b" ++ Nat.repr c ++ "\x7d") ++ interleavePH (r2 :: rs2) (c + 1)).data = _
      simp [string_data_append, hlb, hrb, List.append_assoc]
    rw [hdata]
    rw [reconstructScan_passthrough tm
      ('{' :: ((Nat.repr c).data ++ '}' :: (interleavePH (r2 :: rs2) (c + 1)).data))
      (Or.inr ⟨_, rfl⟩) r.data.length r.data le_rfl
      (hruns r (List.mem_cons_self _ _))]
    rw [reconstructScan_token tm (Nat.repr c).data (interleavePH (r2 :: rs2) (c + 1)).data
      (repr_data_digits c) (repr_data_ne_nil c)]
    have hl0 : TagAbstractor.lookupTag tm (String.mk (Nat.repr c).data) = some v := by
      show TagAbstractor.lookupTag tm (Nat.repr c) = some v
      have h0 := hlook 0 (by simp)
      simpa using h0
    rw [hl0]
    have hrec := ih (r2 :: rs2) (c + 1) (by simpa using hlen)
      (fun r' hr' => hruns r' (List.mem_cons_of_mem _ hr'))
      (fun i h => by
        have hstep := hlook (i + 1) (by simpa using Nat.succ_lt_succ h)
        rw [show c + 1 + i = c + (i + 1) from by omega]
        simpa using hstep)
    rw [hrec]
    show r.data ++ (v.data ++ (joinRV (r2 :: rs2) vs).data) =
      (r ++ v ++ joinRV (r2 :: rs2) vs).data
    simp [string_data_append, List.append_assoc]

lemma walk_lookup_positional (items : XmlChildren) (txt : String)
    (hnodup : (((TagAbstractor.walkItems items 1).2).map Prod.fst).Nodup) :
    ∀ (i : Nat) (h : i < (runsValues items txt).2.length),
      TagAbstractor.lookupTag (TagAbstractor.walkItems items 1).2 (Nat.repr (1 + i)) =
        some ((runsValues items txt).2.get ⟨i, h⟩) := by
  intro i h
  have hfst := walkItems_map_fst items 1
  have hsnd := walkItems_map_snd items 1
  have hvals : (runsValues items txt).2 =
      ((TagAbstractor.walkItems items 1).2).map Prod.snd := by
    rw [hsnd, runsValues_snd]
  have hlen_tm : i < ((TagAbstractor.walkItems items 1).2).length := by
    have h2 := congrArg List.length hvals
    simp only [List.length_map] at h2
    omega
  have hki : i < (List.range' 1 (recognizedEls items).length).length := by
    have h1 := congrArg List.length hfst
    simp only [List.length_map] at h1
    omega
  have he1 : ((TagAbstractor.walkItems items 1).2.get ⟨i, hlen_tm⟩).1 = Nat.repr (1 + i) := by
    have hq1 : ((TagAbstractor.walkItems items 1).2.map Prod.fst).get? i =
        ((List.range' 1 (recognizedEls items).length).map Nat.repr).get? i := by
      rw [hfst]
    rw [List.get?_map, List.get?_map, List.get?_eq_get hlen_tm, List.get?_eq_get hki] at hq1
    simp only [Option.map_some'] at hq1
    rw [Option.some.inj hq1]
    have hval : (List.range' 1 (recognizedEls items).length).get ⟨i, hki⟩ = 1 + i := by
      rw [List.get_eq_getElem, List.getElem_range']
      show 1 + 1 * i = 1 + i
      omega
    rw [hval]
  have he2 : ((TagAbstractor.walkItems items 1).2.get ⟨i, hlen_tm⟩).2 =
      (runsValues items txt).2.get ⟨i, h⟩ := by
    have hq2 : ((runsValues items txt).2).get? i =
        (((TagAbstractor.walkItems items 1).2).map Prod.snd).get? i := by
      rw [hvals]
    rw [List.get?_map, List.get?_eq_get hlen_tm, List.get?_eq_get h] at hq2
    simp only [Option.map_some'] at hq2
    exact (Option.some.inj hq2).symm
  have hfin := lookup_positional _ hnodup i hlen_tm
  rw [he1, he2] at hfin
  exact hfin

/-- C2: corrected.  The claim as stated is false — plain text containing a
`{N}` whose digits coincide with a placeholder key is rewritten by the
round trip (see `claim_C2_roundtrip_counterexample`).  Amended with the
hypothesis the counterexample forces — no literal run of the abstracted
text contains a `{digits}` substring whose digit string is a key of the
produced tags map (keys being pairwise distinct) — the round trip
reproduces each original tag's serialization modulo namespace-declaration
stripping, in place, and the surrounding plain text appears unchanged. -/
theorem claim_C2_roundtrip_amended (txt : String) (items : XmlChildren)
    (hnodup : (((TagAbstractor.walkItems items 1).2).map Prod.fst).Nodup)
    (hruns : ∀ r ∈ (runsValues items txt).1, ∀ t ∈ findTokens r.data,
      TagAbstractor.lookupTag (TagAbstractor.walkItems items 1).2 (tokenKey t) = none) :
    TagAbstractor.reconstruct
      (TagAbstractor.primaryAbstract ⟨txt, items⟩).abstracted_text
      (TagAbstractor.primaryAbstract ⟨txt, items⟩).tags_map =
      txt ++ specRoundTripItems items := by
  have habs : (TagAbstractor.primaryAbstract ⟨txt, items⟩).abstracted_text =
      interleavePH (runsValues items txt).1 1 := (interleave_runsValues items 1 txt).symm
  have hmap : (TagAbstractor.primaryAbstract ⟨txt, items⟩).tags_map =
      (TagAbstractor.walkItems items 1).2 := rfl
  rw [habs, hmap]
  show String.mk (TagAbstractor.reconstructScan (TagAbstractor.walkItems items 1).2
    (interleavePH (runsValues items txt).1 1).data 0) = txt ++ specRoundTripItems items
  rw [reconstruct_interleave (TagAbstractor.walkItems items 1).2 (runsValues items txt).2
    (runsValues items txt).1 1 (runsValues_length items txt) hruns
    (walk_lookup_positional items txt hnodup)]
  show joinRV (runsValues items txt).1 (runsValues items txt).2 =
    txt ++ specRoundTripItems items
  exact joinRV_runsValues items txt

/-- C2 counterexample: the round trip rewrites plain text whose `{1}`
collides with the placeholder key, so the output is not the original
fragment (which is what unchanged-plain-text plus reproduced-tags would
give here, stripping being a no-op). -/
theorem claim_C2_roundtrip_counterexample :
    TagAbstractor.reconstruct
      (TagAbstractor.abstract "cost {1} dollars <ph/>").abstracted_text
      (TagAbstractor.abstract "cost {1} dollars <ph/>").tags_map =
      "cost <ph/> dollars <ph/>" ∧
    ("cost <ph/> dollars <ph/>" : String) ≠ "cost {1} dollars <ph/>" :=
  ⟨rfl, by decide⟩

/-- C2 witness: the amended theorem applied to a concrete fragment, its
hypotheses discharged by evaluation. -/
theorem claim_C2_roundtrip_amended_witness :
    ((((TagAbstractor.walkItems (XmlChildren.cons
        (XmlNode.el "ph" [("id", "1")] "" XmlChildren.nil) "B" XmlChildren.nil) 1).2).map
          Prod.fst).Nodup) ∧
    TagAbstractor.reconstruct
      (TagAbstractor.primaryAbstract ⟨"A", XmlChildren.cons
        (XmlNode.el "ph" [("id", "1")] "" XmlChildren.nil) "B"
          XmlChildren.nil⟩).abstracted_text
      (TagAbstractor.primaryAbstract ⟨"A", XmlChildren.cons
        (XmlNode.el "ph" [("id", "1")] "" XmlChildren.nil) "B"
          XmlChildren.nil⟩).tags_map =
      "A" ++ specRoundTripItems (XmlChildren.cons
        (XmlNode.el "ph" [("id", "1")] "" XmlChildren.nil) "B" XmlChildren.nil) :=
  ⟨by decide, claim_C2_roundtrip_amended "A" _ (by decide) (by decide)⟩

/-! ## Claim C9 -/

lemma firstGt_lt : ∀ (l : List Char) (g : Nat),
    TagAbstractor.firstGt l = some g → g < l.length := by
  intro l
  induction l with
  | nil => intro g hg; simp [TagAbstractor.firstGt] at hg
  | cons c cs ih =>
    intro g hg
    by_cases hc : c = '>'
    · have h0 : g = 0 := by
        simp [TagAbstractor.firstGt, hc] at hg
        omega
      simp [h0]
    · simp only [TagAbstractor.firstGt, if_neg hc] at hg
      rcases Option.map_eq_some'.1 hg with ⟨g', hg', rfl⟩
      have := ih g' hg'
      simp
      omega

lemma nameAt_structure : ∀ (s : List Char) (nm : String) (after : List Char),
    TagAbstractor.nameAt s = some (nm, after) → s = nm.data ++ after := by
  intro s nm after h
  obtain ⟨a, _, hfa⟩ := List.exists_of_findSome?_eq_some h
  by_cases hp : a.data.isPrefixOf s
  · rw [if_pos hp] at hfa
    have hpair := Option.some.inj hfa
    rw [Prod.mk.injEq] at hpair
    rcases hpair with ⟨rfl, rfl⟩
    obtain ⟨t, ht⟩ := List.isPrefixOf_iff_prefix.1 hp
    rw [← ht, List.drop_left]
  · rw [if_neg hp] at hfa
    exact Option.noConfusion hfa

lemma closerLen_le : ∀ (s : List Char) (L : Nat),
    TagAbstractor.closerLen s = some L → 1 ≤ L ∧ L ≤ s.length := by
  intro s L h
  match s with
  | [] => simp [TagAbstractor.closerLen] at h
  | [c1] => simp [TagAbstractor.closerLen] at h
  | c1 :: c2 :: rest =>
    by_cases hcc : c1 = '<' ∧ c2 = '/'
    · rw [show TagAbstractor.closerLen (c1 :: c2 :: rest) =
          (if c1 = '<' ∧ c2 = '/' then
            match TagAbstractor.nameAt rest with
            | some (nm, r) =>
              match r with
              | r1 :: _ => if r1 = '>' then some (2 + nm.data.length + 1) else none
              | [] => none
            | none => none
          else none) from rfl, if_pos hcc] at h
      cases hn : TagAbstractor.nameAt rest with
      | none => rw [hn] at h; exact Option.noConfusion h
      | some p =>
        rcases p with ⟨nm, r⟩
        rw [hn] at h
        have hrest := nameAt_structure rest nm r hn
        cases r with
        | nil => exact Option.noConfusion h
        | cons r1 rr =>
          have h2 : (if r1 = '>' then some (2 + nm.data.length + 1) else none) = some L := h
          by_cases hr1 : r1 = '>'
          · rw [if_pos hr1] at h2
            have hL : L = 2 + nm.data.length + 1 := (Option.some.inj h2).symm
            have hlen : rest.length = nm.data.length + (rr.length + 1) := by
              rw [hrest]; simp
            constructor
            · omega
            · simp only [List.length_cons]
              omega
          · rw [if_neg hr1] at h2
            exact Option.noConfusion h2
    · rw [show TagAbstractor.closerLen (c1 :: c2 :: rest) =
          (if c1 = '<' ∧ c2 = '/' then
            match TagAbstractor.nameAt rest with
            | some (nm, r) =>
              match r with
              | r1 :: _ => if r1 = '>' then some (2 + nm.data.length + 1) else none
              | [] => none
            | none => none
          else none) from rfl, if_neg hcc] at h
      exact absurd h (by simp)

lemma findCloserEnd_le : ∀ (l : List Char) (e : Nat),
    TagAbstractor.findCloserEnd l = some e → e ≤ l.length := by
  intro l
  induction l with
  | nil => intro e he; simp [TagAbstractor.findCloserEnd] at he
  | cons c cs ih =>
    intro e he
    cases hcl : TagAbstractor.closerLen (c :: cs) with
    | some L =>
      simp only [TagAbstractor.findCloserEnd, hcl] at he
      rw [← Option.some.inj he]
      exact (closerLen_le (c :: cs) L hcl).2
    | none =>
      simp only [TagAbstractor.findCloserEnd, hcl] at he
      rcases Option.map_eq_some'.1 he with ⟨e', he', rfl⟩
      have := ih e' he'
      simp only [List.length_cons]
      omega

lemma matchInlineTagLen_le : ∀ (s : List Char) (l : Nat),
    TagAbstractor.matchInlineTagLen s = some l → 1 ≤ l ∧ l ≤ s.length := by
  intro s l h
  match s with
  | [] => simp [TagAbstractor.matchInlineTagLen] at h
  | c :: rest =>
    by_cases hc : c = '<'
    · rw [show TagAbstractor.matchInlineTagLen (c :: rest) =
          (if c = '<' then
            match TagAbstractor.nameAt rest with
            | some (nm, afterName) =>
              match TagAbstractor.firstGt afterName with
              | some g =>
                match TagAbstractor.findCloserEnd (afterName.drop (g + 1)) with
                | some e => some (1 + nm.data.length + g + 1 + e)
                | none =>
                  if 1 ≤ g ∧ afterName.getD (g - 1) 'x' = '/' then
                    some (1 + nm.data.length + g + 1)
                  else none
              | none => none
            | none => none
          else none) from rfl, if_pos hc] at h
      cases hn : TagAbstractor.nameAt rest with
      | none => rw [hn] at h; exact Option.noConfusion h
      | some p =>
        rcases p with ⟨nm, afterName⟩
        rw [hn] at h
        have hrest := nameAt_structure rest nm afterName hn
        have hrl : rest.length = nm.data.length + afterName.length := by
          rw [hrest]; simp
        have h2 : (match TagAbstractor.firstGt afterName with
            | some g =>
              match TagAbstractor.findCloserEnd (afterName.drop (g + 1)) with
              | some e => some (1 + nm.data.length + g + 1 + e)
              | none =>
                if 1 ≤ g ∧ afterName.getD (g - 1) 'x' = '/' then
                  some (1 + nm.data.length + g + 1)
                else none
            | none => none) = some l := h
        cases hg : TagAbstractor.firstGt afterName with
        | none => rw [hg] at h2; exact Option.noConfusion h2
        | some g =>
          rw [hg] at h2
          have hgb := firstGt_lt afterName g hg
          have h3 : (match TagAbstractor.findCloserEnd (afterName.drop (g + 1)) with
              | some e => some (1 + nm.data.length + g + 1 + e)
              | none =>
                if 1 ≤ g ∧ afterName.getD (g - 1) 'x' = '/' then
                  some (1 + nm.data.length + g + 1)
                else none) = some l := h2
          cases hf : TagAbstractor.findCloserEnd (afterName.drop (g + 1)) with
          | some e =>
            rw [hf] at h3
            have heb := findCloserEnd_le (afterName.drop (g + 1)) e hf
            rw [List.length_drop] at heb
            have hl : l = 1 + nm.data.length + g + 1 + e := (Option.some.inj h3).symm
            simp only [List.length_cons]
            omega
          | none =>
            rw [hf] at h3
            by_cases hcond : 1 ≤ g ∧ afterName.getD (g - 1) 'x' = '/'
            · rw [if_pos hcond] at h3
              have hl : l = 1 + nm.data.length + g + 1 := (Option.some.inj h3).symm
              simp only [List.length_cons]
              omega
            · rw [if_neg hcond] at h3
              exact Option.noConfusion h3
    · rw [show TagAbstractor.matchInlineTagLen (c :: rest) =
          (if c = '<' then
            match TagAbstractor.nameAt rest with
            | some (nm, afterName) =>
              match TagAbstractor.firstGt afterName with
              | some g =>
                match TagAbstractor.findCloserEnd (afterName.drop (g + 1)) with
                | some e => some (1 + nm.data.length + g + 1 + e)
                | none =>
                  if 1 ≤ g ∧ afterName.getD (g - 1) 'x' = '/' then
                    some (1 + nm.data.length + g + 1)
                  else none
              | none => none
            | none => none
          else none) from rfl, if_neg hc] at h
      exact absurd h (by simp)

lemma fallbackScan_keys : ∀ (cs : List Char) (c k : Nat),
    ((TagAbstractor.fallbackScan cs c k).2).map Prod.fst =
      (List.range' c ((TagAbstractor.fallbackScan cs c k).2).length).map Nat.repr := by
  intro cs
  induction cs with
  | nil => intro c k; rfl
  | cons ch cs ih =>
    intro c k
    match k with
    | Nat.succ k' =>
      show ((TagAbstractor.fallbackScan cs c k').2).map Prod.fst = _
      exact ih c k'
    | 0 =>
      cases hm : TagAbstractor.matchInlineTagLen (ch :: cs) with
      | none =>
        have he : (TagAbstractor.fallbackScan (ch :: cs) c 0).2 =
            (TagAbstractor.fallbackScan cs c 0).2 := by
          simp [TagAbstractor.fallbackScan, hm]
        rw [he]
        exact ih c 0
      | some l =>
        have he : (TagAbstractor.fallbackScan (ch :: cs) c 0).2 =
            (Nat.repr c, String.mk ((ch :: cs).take l)) ::
              (TagAbstractor.fallbackScan cs (c + 1) (l - 1)).2 := by
          simp [TagAbstractor.fallbackScan, hm]
        rw [he, List.map_cons, List.length_cons,
          show List.range' c ((TagAbstractor.fallbackScan cs (c + 1) (l - 1)).2.length + 1) =
            c :: List.range' (c + 1) ((TagAbstractor.fallbackScan cs (c + 1) (l - 1)).2.length)
            from rfl,
          List.map_cons, ih (c + 1) (l - 1)]

lemma fallbackScan_entries : ∀ (cs : List Char) (c k : Nat),
    ∀ e ∈ (TagAbstractor.fallbackScan cs c k).2,
      ∃ pre suf, cs.drop k = pre ++ e.2.data ++ suf ∧
        TagAbstractor.matchInlineTagLen (e.2.data ++ suf) = some e.2.data.length := by
  intro cs
  induction cs with
  | nil => intro c k e he; simp [TagAbstractor.fallbackScan] at he
  | cons ch cs ih =>
    intro c k e he
    match k with
    | Nat.succ k' =>
      have he' : e ∈ (TagAbstractor.fallbackScan cs c k').2 := he
      obtain ⟨pre, suf, h1, h2⟩ := ih c k' e he'
      exact ⟨pre, suf, h1, h2⟩
    | 0 =>
      cases hm : TagAbstractor.matchInlineTagLen (ch :: cs) with
      | none =>
        have he' : e ∈ (TagAbstractor.fallbackScan cs c 0).2 := by
          have hq : (TagAbstractor.fallbackScan (ch :: cs) c 0).2 =
              (TagAbstractor.fallbackScan cs c 0).2 := by
            simp [TagAbstractor.fallbackScan, hm]
          rw [hq] at he
          exact he
        obtain ⟨pre, suf, h1, h2⟩ := ih c 0 e he'
        refine ⟨ch :: pre, suf, ?_, h2⟩
        rw [List.drop_zero] at h1 ⊢
        rw [show (ch :: pre) ++ e.2.data ++ suf = ch :: (pre ++ e.2.data ++ suf) from by simp,
          ← h1]
      | some l =>
        obtain ⟨hl1, hl2⟩ := matchInlineTagLen_le (ch :: cs) l hm
        have hq : (TagAbstractor.fallbackScan (ch :: cs) c 0).2 =
            (Nat.repr c, String.mk ((ch :: cs).take l)) ::
              (TagAbstractor.fallbackScan cs (c + 1) (l - 1)).2 := by
          simp [TagAbstractor.fallbackScan, hm]
        rw [hq] at he
        rcases List.mem_cons.1 he with rfl | he'
        · refine ⟨[], (ch :: cs).drop l, ?_, ?_⟩
          · show ch :: cs = [] ++ (String.mk ((ch :: cs).take l)).data ++ (ch :: cs).drop l
            rw [show (String.mk ((ch :: cs).take l)).data = (ch :: cs).take l from rfl,
              List.nil_append, List.take_append_drop]
          · have hlen : ((ch :: cs).take l).length = l := by
              rw [List.length_take]
              omega
            rw [show (String.mk ((ch :: cs).take l)).data = (ch :: cs).take l from rfl,
              List.take_append_drop, hlen]
            exact hm
        · obtain ⟨pre, suf, h1, h2⟩ := ih (c + 1) (l - 1) e he'
          refine ⟨(ch :: cs).take l ++ pre, suf, ?_, h2⟩
          have hd : cs.drop (l - 1) = (ch :: cs).drop l := by
            cases l with
            | zero => omega
            | succ l' => simp
          rw [hd] at h1
          rw [List.drop_zero]
          conv_lhs => rw [← List.take_append_drop l (ch :: cs)]
          rw [h1]
          simp [List.append_assoc]

/-- C9: corrected.  The positive half holds: on the fallback path every
entry of `tags_map` is the text of an `INLINE_TAG_REGEX` match of the raw
string (with key list `"1"`, `"2"`, … in scan order), and a scan that
records no token returns the text unchanged.  The comment half of the
claim is false: the regex does not know about comments, so tag-shaped text
inside an XML comment is tokenized (see the counterexample). -/
theorem claim_C9_fallback_matches (s : String) :
    (∀ e ∈ (TagAbstractor.fallbackAbstract s).tags_map,
      ∃ pre suf, s.data = pre ++ e.2.data ++ suf ∧
        TagAbstractor.matchInlineTagLen (e.2.data ++ suf) = some e.2.data.length) ∧
    ((TagAbstractor.fallbackAbstract s).tags_map.map Prod.fst =
      (List.range' 1 (TagAbstractor.fallbackAbstract s).tags_map.length).map Nat.repr) ∧
    ((TagAbstractor.fallbackAbstract s).tags_map = [] →
      (TagAbstractor.fallbackAbstract s).abstracted_text = s) := by
  refine ⟨?_, fallbackScan_keys s.data 1 0, ?_⟩
  · intro e he
    have h := fallbackScan_entries s.data 1 0 e he
    rwa [List.drop_zero] at h
  · intro h
    have h1 := fallbackScan_no_tokens s.data 1 h
    show String.mk (TagAbstractor.fallbackScan s.data 1 0).1 = s
    rw [h1]

/-- C9 witness: a fallback run with no matches returns the text as-is. -/
theorem claim_C9_fallback_matches_witness :
    (TagAbstractor.fallbackAbstract "plain text").tags_map = [] ∧
    (TagAbstractor.fallbackAbstract "plain text").abstracted_text = "plain text" :=
  ⟨rfl, (claim_C9_fallback_matches "plain text").2.2 rfl⟩

/-- C9 counterexample: on the fallback path (XML parsing fails on the
unclosed `<q>`), the tag-shaped text inside the comment is tokenized: the
comment text does not pass through untouched and the matched `<ph/>` is
recorded in the map. -/
theorem claim_C9_comment_tokenized_counterexample :
    parseFragment "<q> <!-- <ph/> -->" = none ∧
    TagAbstractor.abstract "<q> <!-- <ph/> -->" =
      ⟨"<q> <!-- {1} -->", [("1", "<ph/>")]⟩ ∧
    (TagAbstractor.abstract "<q> <!-- <ph/> -->").abstracted_text ≠
      "<q> <!-- <ph/> -->" :=
  ⟨rfl, rfl, by decide⟩

/-! ## Claim C5 -/

namespace TokenGuard

/-- Spec-side classification events of the tags-map entries, in insertion
order: the entries that the id regexes recognize as `bpt` or `ept`. -/
def pairEvents (tags_map : List (String × String)) : List (String × Bool × String) :=
  tags_map.filterMap fun e => classifyEntry e.1 e.2

/-- Last `bpt` token registered for a semantic id (a later entry with the
same id overwrites the dict field). -/
def lastBpt (evs : List (String × Bool × String)) (rid : String) : Option String :=
  ((evs.filter fun e => decide (e.1 = rid ∧ e.2.1 = true)).getLast?).map fun e => e.2.2

/-- Last `ept` token registered for a semantic id. -/
def lastEpt (evs : List (String × Bool × String)) (rid : String) : Option String :=
  ((evs.filter fun e => decide (e.1 = rid ∧ e.2.1 = false)).getLast?).map fun e => e.2.2

/-- Spec-side `pairs_map`: semantic ids in first-occurrence order, each
with its last-registered `bpt` and `ept` tokens. -/
def pairsSpec (evs : List (String × Bool × String)) :
    List (String × Option String × Option String) :=
  (counterKeys (evs.map Prod.fst)).map fun rid => (rid, lastBpt evs rid, lastEpt evs rid)

/-- The fold of `buildPairs`, expressed over classification events. -/
def applyEvents : List (String × Bool × String) →
    List (String × Option String × Option String) →
    List (String × Option String × Option String)
  | [], pm => pm
  | (rid, isBpt, tok) :: evs, pm => applyEvents evs (updatePairs pm rid isBpt tok)

/-- Spec-side pairing errors (the claim's wording): one entry per semantic
id, in first-occurrence order, whose last-registered `bpt` and `ept`
tokens both exist and both occur in the target token list with the `bpt`
first occurring strictly after the `ept`. -/
def pairingErrorsSpec (tags_map : List (String × String))
    (target_tokens : List String) : List String :=
  (counterKeys ((pairEvents tags_map).map Prod.fst)).filterMap fun rid =>
    match lastBpt (pairEvents tags_map) rid, lastEpt (pairEvents tags_map) rid with
    | some bpt, some ept =>
      if bpt ∈ target_tokens ∧ ept ∈ target_tokens ∧
          target_tokens.indexOf ept < target_tokens.indexOf bpt then
        some ("Broken Pair: " ++ bpt ++ " appears after " ++ ept)
      else none
    | _, _ => none

end TokenGuard

lemma buildPairs_eq_applyEvents : ∀ (tm : List (String × String))
    (pm : List (String × Option String × Option String)),
    TokenGuard.buildPairs tm pm =
      TokenGuard.applyEvents (TokenGuard.pairEvents tm) pm := by
  intro tm
  induction tm with
  | nil => intro pm; rfl
  | cons e rest ih =>
    intro pm
    rcases e with ⟨pid, content⟩
    cases hcl : TokenGuard.classifyEntry pid content with
    | none =>
      rw [show TokenGuard.buildPairs ((pid, content) :: rest) pm =
          (match TokenGuard.classifyEntry pid content with
           | some (rid, isBpt, tok) =>
             TokenGuard.buildPairs rest (TokenGuard.updatePairs pm rid isBpt tok)
           | none => TokenGuard.buildPairs rest pm) from rfl, hcl]
      rw [show TokenGuard.pairEvents ((pid, content) :: rest) =
          ((TokenGuard.classifyEntry pid content).toList ++ TokenGuard.pairEvents rest)
          from by simp [TokenGuard.pairEvents, List.filterMap_cons, hcl], hcl]
      exact ih pm
    | some ev =>
      rcases ev with ⟨rid, isBpt, tok⟩
      rw [show TokenGuard.buildPairs ((pid, content) :: rest) pm =
          (match TokenGuard.classifyEntry pid content with
           | some (rid, isBpt, tok) =>
             TokenGuard.buildPairs rest (TokenGuard.updatePairs pm rid isBpt tok)
           | none => TokenGuard.buildPairs rest pm) from rfl, hcl]
      rw [show TokenGuard.pairEvents ((pid, content) :: rest) =
          ((TokenGuard.classifyEntry pid content).toList ++ TokenGuard.pairEvents rest)
          from by simp [TokenGuard.pairEvents, List.filterMap_cons, hcl], hcl]
      exact ih _

lemma counterKeysAux_append_singleton (a : String) : ∀ (l seen : List String),
    counterKeysAux seen (l ++ [a]) =
      counterKeysAux seen l ++ (if a ∈ seen ∨ a ∈ l then [] else [a]) := by
  intro l
  induction l with
  | nil =>
    intro seen
    by_cases ha : a ∈ seen <;> simp [counterKeysAux, ha]
  | cons x xs ih =>
    intro seen
    by_cases hx : x ∈ seen
    · rw [List.cons_append]
      simp only [counterKeysAux, if_pos hx]
      rw [ih seen]
      by_cases hax : a = x
      · subst hax
        simp [hx]
      · have hiff : (a ∈ seen ∨ a ∈ xs) ↔ (a ∈ seen ∨ a ∈ x :: xs) := by
          simp only [List.mem_cons]
          tauto
        simp only [hiff]
    · rw [List.cons_append]
      simp only [counterKeysAux, if_neg hx]
      rw [ih (x :: seen)]
      have hiff : (a ∈ x :: seen ∨ a ∈ xs) ↔ (a ∈ seen ∨ a ∈ x :: xs) := by
        simp only [List.mem_cons]
        tauto
      simp only [hiff, List.cons_append]

lemma counterKeys_append_singleton (l : List String) (a : String) :
    counterKeys (l ++ [a]) = counterKeys l ++ (if a ∈ l then [] else [a]) := by
  have h := counterKeysAux_append_singleton a l []
  simpa [counterKeys] using h

lemma lastBpt_append_event (pre : List (String × Bool × String))
    (rid : String) (isB : Bool) (tok : String) (k : String) :
    TokenGuard.lastBpt (pre ++ [(rid, isB, tok)]) k =
      if k = rid ∧ isB = true then some tok else TokenGuard.lastBpt pre k := by
  unfold TokenGuard.lastBpt
  rw [List.filter_append]
  by_cases hc : k = rid ∧ isB = true
  · have hp : (List.filter (fun e => decide (e.1 = k ∧ e.2.1 = true)) [(rid, isB, tok)]) =
        [(rid, isB, tok)] := by
      simp [hc.1.symm, hc.2]
    rw [hp, if_pos hc, List.getLast?_concat]
    rfl
  · have hp : (List.filter (fun e => decide (e.1 = k ∧ e.2.1 = true)) [(rid, isB, tok)]) =
        [] := by
      simp only [List.filter, decide_eq_true_eq]
      have : ¬ (rid = k ∧ isB = true) := by
        intro hcontra
        exact hc ⟨hcontra.1.symm, hcontra.2⟩
      simp [this]
    rw [hp, if_neg hc, List.append_nil]

lemma lastEpt_append_event (pre : List (String × Bool × String))
    (rid : String) (isB : Bool) (tok : String) (k : String) :
    TokenGuard.lastEpt (pre ++ [(rid, isB, tok)]) k =
      if k = rid ∧ isB = false then some tok else TokenGuard.lastEpt pre k := by
  unfold TokenGuard.lastEpt
  rw [List.filter_append]
  by_cases hc : k = rid ∧ isB = false
  · have hp : (List.filter (fun e => decide (e.1 = k ∧ e.2.1 = false)) [(rid, isB, tok)]) =
        [(rid, isB, tok)] := by
      simp [hc.1.symm, hc.2]
    rw [hp, if_pos hc, List.getLast?_concat]
    rfl
  · have hp : (List.filter (fun e => decide (e.1 = k ∧ e.2.1 = false)) [(rid, isB, tok)]) =
        [] := by
      simp only [List.filter, decide_eq_true_eq]
      have : ¬ (rid = k ∧ isB = false) := by
        intro hcontra
        exact hc ⟨hcontra.1.symm, hcontra.2⟩
      simp [this]
    rw [hp, if_neg hc, List.append_nil]

lemma lastBpt_not_mem (evs : List (String × Bool × String)) (rid : String)
    (h : rid ∉ evs.map Prod.fst) : TokenGuard.lastBpt evs rid = none := by
  unfold TokenGuard.lastBpt
  have hf : evs.filter (fun e => decide (e.1 = rid ∧ e.2.1 = true)) = [] := by
    rw [List.filter_eq_nil_iff]
    intro e he
    simp only [decide_eq_true_eq, not_and]
    intro h1
    exact absurd (h1 ▸ List.mem_map_of_mem Prod.fst he) h
  rw [hf]
  rfl

lemma lastEpt_not_mem (evs : List (String × Bool × String)) (rid : String)
    (h : rid ∉ evs.map Prod.fst) : TokenGuard.lastEpt evs rid = none := by
  unfold TokenGuard.lastEpt
  have hf : evs.filter (fun e => decide (e.1 = rid ∧ e.2.1 = false)) = [] := by
    rw [List.filter_eq_nil_iff]
    intro e he
    simp only [decide_eq_true_eq, not_and]
    intro h1
    exact absurd (h1 ▸ List.mem_map_of_mem Prod.fst he) h
  rw [hf]
  rfl

/-- Field update performed by `updatePairs` on an existing (or fresh) pair
record: `bpt` entries set the first field, `ept` entries the second. -/
def updFields (isB : Bool) (tok : String) (p : Option String × Option String) :
    Option String × Option String :=
  if isB then (some tok, p.2) else (p.1, some tok)

lemma updatePairs_eq (pm : List (String × Option String × Option String))
    (rid : String) (isB : Bool) (tok : String)
    (hnd : (pm.map Prod.fst).Nodup) :
    TokenGuard.updatePairs pm rid isB tok =
      if rid ∈ pm.map Prod.fst then
        pm.map fun p => if p.1 = rid then (rid, updFields isB tok p.2) else p
      else pm ++ [(rid, updFields isB tok (none, none))] := by
  induction pm with
  | nil =>
    simp only [List.map_nil, List.not_mem_nil, if_neg (fun h => h), List.nil_append]
    cases isB <;> rfl
  | cons hd ps ih =>
    rcases hd with ⟨r, b, e⟩
    rw [List.map_cons, List.nodup_cons] at hnd
    by_cases hr : r = rid
    · subst hr
      rw [List.map_cons,
        if_pos (show r ∈ (r, b, e).1 :: ps.map Prod.fst from List.mem_cons_self _ _),
        List.map_cons]
      have hL : TokenGuard.updatePairs ((r, b, e) :: ps) r isB tok =
          if r = r then (r, if isB then (some tok, e) else (b, some tok)) :: ps
          else (r, b, e) :: TokenGuard.updatePairs ps r isB tok := rfl
      rw [hL, if_pos rfl]
      have hhd : (if ((r, b, e) : String × Option String × Option String).1 = r
          then (r, updFields isB tok ((r, b, e) :
            String × Option String × Option String).2)
          else (r, b, e)) = (r, if isB then (some tok, e) else (b, some tok)) := by
        rw [if_pos rfl]
        cases isB <;> rfl
      rw [hhd]
      congr 1
      have hps : ∀ p ∈ ps, (if (p : String × Option String × Option String).1 = r
          then (r, updFields isB tok p.2) else p) = p := by
        intro p hp
        rw [if_neg]
        intro hpr
        apply hnd.1
        rw [← hpr]
        show p.1 ∈ List.map Prod.fst ps
        exact List.mem_map_of_mem Prod.fst hp
      rw [List.map_congr_left hps]
      exact (List.map_id ps).symm
    · simp only [TokenGuard.updatePairs, if_neg hr]
      rw [ih hnd.2]
      by_cases hmem : rid ∈ ps.map Prod.fst
      · rw [if_pos hmem, if_pos (by simp [List.mem_cons, hmem]), List.map_cons,
          if_neg (fun h => hr h)]
      · rw [if_neg hmem, if_neg (by
          simp only [List.map_cons, List.mem_cons]
          rintro (h | h)
          · exact hr h.symm
          · exact hmem h), List.cons_append]

lemma pairsSpec_fst (evs : List (String × Bool × String)) :
    (TokenGuard.pairsSpec evs).map Prod.fst = counterKeys (evs.map Prod.fst) := by
  unfold TokenGuard.pairsSpec
  rw [List.map_map]
  exact List.map_id _

lemma pairsSpec_step (pre : List (String × Bool × String))
    (rid : String) (isB : Bool) (tok : String) :
    TokenGuard.updatePairs (TokenGuard.pairsSpec pre) rid isB tok =
      TokenGuard.pairsSpec (pre ++ [(rid, isB, tok)]) := by
  rw [updatePairs_eq _ _ _ _ (by rw [pairsSpec_fst]; exact counterKeys_nodup _)]
  have hkeys : counterKeys ((pre ++ [(rid, isB, tok)]).map Prod.fst) =
      counterKeys (pre.map Prod.fst) ++
        (if rid ∈ pre.map Prod.fst then [] else [rid]) := by
    rw [List.map_append]
    exact counterKeys_append_singleton _ _
  have hmemiff : rid ∈ (TokenGuard.pairsSpec pre).map Prod.fst ↔
      rid ∈ pre.map Prod.fst := by
    rw [pairsSpec_fst]
    exact counterKeys_mem _ _
  by_cases hmem : rid ∈ pre.map Prod.fst
  · rw [if_pos (hmemiff.2 hmem)]
    unfold TokenGuard.pairsSpec
    rw [hkeys, if_pos hmem, List.append_nil, List.map_map]
    apply List.map_congr_left
    intro k _
    show (if k = rid then
        (rid, updFields isB tok (TokenGuard.lastBpt pre k, TokenGuard.lastEpt pre k))
      else (k, TokenGuard.lastBpt pre k, TokenGuard.lastEpt pre k)) =
      (k, TokenGuard.lastBpt (pre ++ [(rid, isB, tok)]) k,
        TokenGuard.lastEpt (pre ++ [(rid, isB, tok)]) k)
    rw [lastBpt_append_event, lastEpt_append_event]
    by_cases hk : k = rid
    · subst hk
      rw [if_pos rfl]
      cases isB with
      | true =>
        rw [if_pos (show k = k ∧ true = true from ⟨rfl, rfl⟩),
          if_neg (show ¬ (k = k ∧ true = false) from fun h => Bool.noConfusion h.2)]
        rfl
      | false =>
        rw [if_neg (show ¬ (k = k ∧ false = true) from fun h => Bool.noConfusion h.2),
          if_pos (show k = k ∧ false = false from ⟨rfl, rfl⟩)]
        rfl
    · rw [if_neg hk, if_neg (fun h => hk h.1), if_neg (fun h => hk h.1)]
  · rw [if_neg (fun h => hmem (hmemiff.1 h))]
    unfold TokenGuard.pairsSpec
    rw [hkeys, if_neg hmem, List.map_append]
    congr 1
    · apply List.map_congr_left
      intro k hkmem
      have hk : ¬ k = rid := by
        intro h
        exact hmem (h ▸ (counterKeys_mem _ _).1 hkmem)
      show (k, TokenGuard.lastBpt pre k, TokenGuard.lastEpt pre k) =
        (k, TokenGuard.lastBpt (pre ++ [(rid, isB, tok)]) k,
          TokenGuard.lastEpt (pre ++ [(rid, isB, tok)]) k)
      rw [lastBpt_append_event, lastEpt_append_event,
        if_neg (fun h => hk h.1), if_neg (fun h => hk h.1)]
    · rw [List.map_singleton, lastBpt_append_event, lastEpt_append_event]
      cases isB with
      | true =>
        rw [if_pos (show rid = rid ∧ true = true from ⟨rfl, rfl⟩),
          if_neg (show ¬ (rid = rid ∧ true = false) from fun h => Bool.noConfusion h.2),
          lastEpt_not_mem pre rid hmem]
        rfl
      | false =>
        rw [if_neg (show ¬ (rid = rid ∧ false = true) from fun h => Bool.noConfusion h.2),
          if_pos (show rid = rid ∧ false = false from ⟨rfl, rfl⟩),
          lastBpt_not_mem pre rid hmem]
        rfl

lemma applyEvents_pairsSpec : ∀ (evs pre : List (String × Bool × String)),
    TokenGuard.applyEvents evs (TokenGuard.pairsSpec pre) =
      TokenGuard.pairsSpec (pre ++ evs) := by
  intro evs
  induction evs with
  | nil =>
    intro pre
    simp [TokenGuard.applyEvents]
  | cons ev rest ih =>
    intro pre
    rcases ev with ⟨rid, isB, tok⟩
    show TokenGuard.applyEvents rest
        (TokenGuard.updatePairs (TokenGuard.pairsSpec pre) rid isB tok) = _
    rw [pairsSpec_step, ih (pre ++ [(rid, isB, tok)]), List.append_assoc]
    rfl

lemma buildPairs_pairsSpec (tm : List (String × String)) :
    TokenGuard.buildPairs tm [] =
      TokenGuard.pairsSpec (TokenGuard.pairEvents tm) := by
  rw [buildPairs_eq_applyEvents]
  have h0 : TokenGuard.pairsSpec [] = [] := rfl
  rw [← h0, applyEvents_pairsSpec, List.nil_append]

lemma flatMap_map_filterMap {α β : Type} (ks : List String) (g : String → α)
    (f : α → List β) (h : String → Option β)
    (hfg : ∀ k ∈ ks, f (g k) = (h k).toList) :
    (ks.map g).flatMap f = ks.filterMap h := by
  induction ks with
  | nil => rfl
  | cons k ks ih =>
    rw [List.map_cons, List.flatMap_cons, hfg k (List.mem_cons_self _ _),
      List.filterMap_cons]
    cases h k with
    | none =>
      show [] ++ (ks.map g).flatMap f = ks.filterMap h
      rw [List.nil_append]
      exact ih fun a ha => hfg a (List.mem_cons_of_mem _ ha)
    | some b =>
      show [b] ++ (ks.map g).flatMap f = b :: ks.filterMap h
      rw [List.singleton_append, ih fun a ha => hfg a (List.mem_cons_of_mem _ ha)]

lemma pairingErrors_pairsSpec (evs : List (String × Bool × String))
    (tgt : List String) :
    TokenGuard.pairingErrors (TokenGuard.pairsSpec evs) tgt =
      (counterKeys (evs.map Prod.fst)).filterMap (fun rid =>
        match TokenGuard.lastBpt evs rid, TokenGuard.lastEpt evs rid with
        | some bpt, some ept =>
          if bpt ∈ tgt ∧ ept ∈ tgt ∧ tgt.indexOf ept < tgt.indexOf bpt then
            some ("Broken Pair: " ++ bpt ++ " appears after " ++ ept)
          else none
        | _, _ => none) := by
  unfold TokenGuard.pairingErrors TokenGuard.pairsSpec
  apply flatMap_map_filterMap
  intro k _
  cases hb : TokenGuard.lastBpt evs k with
  | none =>
    cases he : TokenGuard.lastEpt evs k with
    | none => simp only [hb, he]; rfl
    | some ept => simp only [hb, he]; rfl
  | some bpt =>
    cases he : TokenGuard.lastEpt evs k with
    | none => simp only [hb, he]; rfl
    | some ept =>
      simp only [hb, he]
      by_cases h1 : bpt ∈ tgt ∧ ept ∈ tgt
      · by_cases h2 : tgt.indexOf ept < tgt.indexOf bpt
        · rw [if_pos h1, if_pos h2, if_pos ⟨h1.1, h1.2, h2⟩]
          rfl
        · rw [if_pos h1, if_neg h2,
            if_neg (show ¬ (bpt ∈ tgt ∧ ept ∈ tgt ∧ tgt.indexOf ept < tgt.indexOf bpt)
              from fun h => h2 h.2.2)]
          rfl
      · rw [if_neg h1,
          if_neg (show ¬ (bpt ∈ tgt ∧ ept ∈ tgt ∧ tgt.indexOf ept < tgt.indexOf bpt)
            from fun h => h1 ⟨h.1, h.2.1⟩)]
        rfl

/-- C5: for every source text, target text and tags map, `validate`'s
`pairing_errors` has exactly one entry per semantic id (in first-appearance
order over the recognized `tags_map` entries) whose last-registered `bpt`
and `ept` tokens both exist and both occur in the target token sequence
with the `bpt` token's first-occurrence index strictly greater than the
`ept` token's, and `valid` is `true` iff `missing`, `extra` and
`pairing_errors` are all empty. -/
theorem claim_C5_validate_pairing (source_text target_text : String)
    (tags_map : List (String × String)) :
    ((TokenGuard.validate source_text target_text tags_map).valid = true ↔
      ((TokenGuard.validate source_text target_text tags_map).missing = [] ∧
       (TokenGuard.validate source_text target_text tags_map).extra = [] ∧
       (TokenGuard.validate source_text target_text tags_map).pairing_errors = [])) ∧
    (TokenGuard.validate source_text target_text tags_map).pairing_errors =
      TokenGuard.pairingErrorsSpec tags_map
        (TokenGuard.extract_tokens target_text) := by
  constructor
  · have hv : (TokenGuard.validate source_text target_text tags_map).valid =
        ((TokenGuard.tgMissing (TokenGuard.extract_tokens source_text)
            (TokenGuard.extract_tokens target_text)).isEmpty &&
         (TokenGuard.tgExtra (TokenGuard.extract_tokens source_text)
            (TokenGuard.extract_tokens target_text)).isEmpty &&
         (TokenGuard.pairingErrors (TokenGuard.buildPairs tags_map [])
            (TokenGuard.extract_tokens target_text)).isEmpty) := rfl
    have hm : (TokenGuard.validate source_text target_text tags_map).missing =
        TokenGuard.tgMissing (TokenGuard.extract_tokens source_text)
          (TokenGuard.extract_tokens target_text) := rfl
    have he : (TokenGuard.validate source_text target_text tags_map).extra =
        TokenGuard.tgExtra (TokenGuard.extract_tokens source_text)
          (TokenGuard.extract_tokens target_text) := rfl
    have hp : (TokenGuard.validate source_text target_text tags_map).pairing_errors =
        TokenGuard.pairingErrors (TokenGuard.buildPairs tags_map [])
          (TokenGuard.extract_tokens target_text) := rfl
    rw [hv, hm, he, hp, Bool.and_assoc, Bool.and_eq_true, Bool.and_eq_true,
      List.isEmpty_iff, List.isEmpty_iff, List.isEmpty_iff]
  · have hp : (TokenGuard.validate source_text target_text tags_map).pairing_errors =
        TokenGuard.pairingErrors (TokenGuard.buildPairs tags_map [])
          (TokenGuard.extract_tokens target_text) := rfl
    rw [hp, buildPairs_pairsSpec, pairingErrors_pairsSpec]
    rfl

/-- C5 witness: a reversed `bpt`/`ept` pair in the target token sequence
yields `valid = false` with a broken-pair entry even though `missing` and
`extra` are empty, and the pairing errors agree with the spec-side
characterization. -/
theorem claim_C5_validate_pairing_witness :
    (TokenGuard.validate "{1}a{2}" "{2}b{1}"
        [("1", "<bpt id=\"x\">"), ("2", "<ept id=\"x\">")]).pairing_errors =
      TokenGuard.pairingErrorsSpec
        [("1", "<bpt id=\"x\">"), ("2", "<ept id=\"x\">")]
        (TokenGuard.extract_tokens "{2}b{1}") ∧
    (TokenGuard.validate "{1}a{2}" "{2}b{1}"
        [("1", "<bpt id=\"x\">"), ("2", "<ept id=\"x\">")]).valid = false ∧
    (TokenGuard.validate "{1}a{2}" "{2}b{1}"
        [("1", "<bpt id=\"x\">"), ("2", "<ept id=\"x\">")]).missing = [] ∧
    (TokenGuard.validate "{1}a{2}" "{2}b{1}"
        [("1", "<bpt id=\"x\">"), ("2", "<ept id=\"x\">")]).extra = [] ∧
    (TokenGuard.validate "{1}a{2}" "{2}b{1}"
        [("1", "<bpt id=\"x\">"), ("2", "<ept id=\"x\">")]).pairing_errors =
      ["Broken Pair: {1} appears after {2}"] :=
  ⟨(claim_C5_validate_pairing "{1}a{2}" "{2}b{1}"
      [("1", "<bpt id=\"x\">"), ("2", "<ept id=\"x\">")]).2,
    by decide, by decide, by decide, by decide⟩

